import Mathlib

/-!
Verification of the CEGS propagation engine specification against a shallow
embedding of the source code.

Part 1 embeds the typed network graph of tekton/graph.py: node and edge
insertion goes through typed constructors, node-type predicates, and the
typed edge constructors with their endpoint checks.

Part 2 embeds the propagation and evaluation engine of
synet/synthesis/new_propagation.py: iBGP zone extraction, AS-path expansion,
per-prefix graph merging, and the fact construction of the evaluator.

Fallible Python code (assertions, KeyError lookups) is embedded with
Except String; dictionaries are embedded as association lists in insertion
order; Python sets are embedded as lists whose membership is the set
membership.
-/

namespace CEGS

/-- VERTEXTYPE enum of tekton/graph.py. -/
inductive VERTEXTYPE where
  | ROUTER
  | NETWORK
  | PEER
deriving DecidableEq, Repr

/-- EDGETYPE enum of tekton/graph.py. -/
inductive EDGETYPE where
  | ROUTER
  | NETWORK
  | PEER
deriving DecidableEq, Repr

/-- The NetworkGraph of tekton/graph.py, restricted to the data the claims
touch: the node dictionary (node name to its VERTEX_TYPE attribute, which is
missing for nodes auto-inserted by the base class add_edge) and the edge
dictionary with the EDGE_TYPE attribute.  Insertion order is kept. -/
structure NGraph where
  nodes : List (String × Option VERTEXTYPE)
  edges : List (String × String × EDGETYPE)
deriving DecidableEq, Repr

/-- networkx has_node. -/
def has_node (g : NGraph) (n : String) : Bool :=
  (g.nodes.lookup n).isSome

/-- Base-class (networkx) add_node: insert or update the node attribute. -/
def raw_add_node (g : NGraph) (n : String) (vt : Option VERTEXTYPE) : NGraph :=
  if has_node g n then
    { g with nodes := g.nodes.map (fun p => if p.1 = n then (n, vt) else p) }
  else
    { g with nodes := g.nodes ++ [(n, vt)] }

/-- NetworkGraph.add_node: refuses an insertion without a VERTEX_TYPE
attribute (raises ValueError), otherwise defers to the base class. -/
def add_node (g : NGraph) (n : String) (attr : Option VERTEXTYPE) :
    Except String NGraph :=
  match attr with
  | none => .error "Cannot add directly nodes, must use add_router, add_peer etc.."
  | some vt => .ok (raw_add_node g n (some vt))

/-- NetworkGraph.add_router. -/
def add_router (g : NGraph) (r : String) : Except String NGraph :=
  add_node g r (some VERTEXTYPE.ROUTER)

/-- NetworkGraph.add_peer. -/
def add_peer (g : NGraph) (r : String) : Except String NGraph :=
  add_node g r (some VERTEXTYPE.PEER)

/-- NetworkGraph.add_network. -/
def add_network (g : NGraph) (n : String) : Except String NGraph :=
  add_node g n (some VERTEXTYPE.NETWORK)

/-- NetworkGraph.is_peer: False when the node is absent; a KeyError when the
node is present without a VERTEX_TYPE attribute. -/
def is_peer (g : NGraph) (n : String) : Except String Bool :=
  match g.nodes.lookup n with
  | none => .ok false
  | some none => .error "KeyError: VERTEX_TYPE"
  | some (some t) => .ok (t = VERTEXTYPE.PEER)

/-- NetworkGraph.is_local_router. -/
def is_local_router (g : NGraph) (n : String) : Except String Bool :=
  match g.nodes.lookup n with
  | none => .ok false
  | some none => .error "KeyError: VERTEX_TYPE"
  | some (some t) => .ok (t = VERTEXTYPE.ROUTER)

/-- NetworkGraph.is_network. -/
def is_network (g : NGraph) (n : String) : Except String Bool :=
  match g.nodes.lookup n with
  | none => .ok false
  | some none => .error "KeyError: VERTEX_TYPE"
  | some (some t) => .ok (t = VERTEXTYPE.NETWORK)

/-- NetworkGraph.is_router: True for local routers and peers; the Python
"or" evaluates is_peer first and short-circuits. -/
def is_router (g : NGraph) (n : String) : Except String Bool := do
  let p ← is_peer g n
  if p then return true else is_local_router g n

/-- Update the attribute of a directed edge, or append it. -/
def set_edge : List (String × String × EDGETYPE) → String → String → EDGETYPE →
    List (String × String × EDGETYPE)
  | [], u, v, et => [(u, v, et)]
  | (a, b, e) :: rest, u, v, et =>
      if a = u ∧ b = v then (u, v, et) :: rest
      else (a, b, e) :: set_edge rest u v et

/-- Base-class (networkx DiGraph) add_edge: auto-inserts missing endpoints
without a VERTEX_TYPE attribute, then records the edge with its attribute. -/
def raw_add_edge (g : NGraph) (u v : String) (et : EDGETYPE) : NGraph :=
  let g1 := if has_node g u then g else { g with nodes := g.nodes ++ [(u, none)] }
  let g2 := if has_node g1 v then g1 else { g1 with nodes := g1.nodes ++ [(v, none)] }
  { g2 with edges := set_edge g2.edges u v et }

/-- NetworkGraph.add_edge: refuses an insertion without an EDGE_TYPE
attribute (raises ValueError), otherwise defers to the base class. -/
def add_edge (g : NGraph) (u v : String) (attr : Option EDGETYPE) :
    Except String NGraph :=
  match attr with
  | none => .error "Cannot add directly edges, must use add_router_edge, add_peer_edge etc.."
  | some et => .ok (raw_add_edge g u v et)

/-- NetworkGraph.add_router_edge.  The source asserts is_local_router(u)
twice: the second assertion, whose message speaks of the destination, again
tests u, exactly as the source does. -/
def add_router_edge (g : NGraph) (u v : String) : Except String NGraph := do
  let b1 ← is_local_router g u
  if !b1 then throw (String.append (String.append "Source " u) " is not a router")
  let b2 ← is_local_router g u
  if !b2 then throw (String.append (String.append "Destination " u) " is not a router")
  add_edge g u v (some EDGETYPE.ROUTER)

/-- NetworkGraph.add_peer_edge. -/
def add_peer_edge (g : NGraph) (u v : String) : Except String NGraph := do
  let c1 ← (do
    let a ← is_peer g u
    if a then return true else is_peer g v)
  if !c1 then throw "One side is not a peer router"
  let c2 ← (do
    let a ← is_router g u
    if a then return true else is_router g v)
  if !c2 then throw "One side is not a local router"
  add_edge g u v (some EDGETYPE.PEER)

/-- NetworkGraph.add_network_edge. -/
def add_network_edge (g : NGraph) (u v : String) : Except String NGraph := do
  let c1 ← (do
    let a ← is_router g u
    if a then return true else is_router g v)
  if !c1 then throw "One side is not a local router"
  let c2 ← (do
    let a ← is_network g u
    if a then return true else is_network g v)
  if !c2 then throw "One side is not a network"
  add_edge g u v (some EDGETYPE.NETWORK)

end CEGS

namespace CEGS

/-- A concrete graph holding one local router R1 and one network N1,
as produced by add_router and add_network. -/
def c7Graph : NGraph :=
  ⟨[("R1", some VERTEXTYPE.ROUTER), ("N1", some VERTEXTYPE.NETWORK)], []⟩

/-- C7 evaluation at the failing input: add_router_edge accepts the edge
(R1, N1) although the destination N1 is not a local router, because the
source asserts is_local_router on the source endpoint twice and never checks
the destination; the assertion message for the destination names intent the
code does not implement. -/
theorem c7_add_router_edge_accepts_nonrouter_dst :
    add_router_edge c7Graph "R1" "N1" =
      .ok ⟨[("R1", some VERTEXTYPE.ROUTER), ("N1", some VERTEXTYPE.NETWORK)],
           [("R1", "N1", EDGETYPE.ROUTER)]⟩ ∧
    is_local_router c7Graph "N1" = .ok false := by
  constructor
  · rfl
  · rfl

/-- C10: the node-type predicates are total over arbitrary node names: for
any name not present in the graph, is_peer, is_local_router, is_network and
is_router all return False rather than raising. -/
theorem c10_type_predicates_total (g : NGraph) (n : String)
    (h : has_node g n = false) :
    is_peer g n = .ok false ∧ is_local_router g n = .ok false ∧
    is_network g n = .ok false ∧ is_router g n = .ok false := by
  have hl : g.nodes.lookup n = none := by
    unfold has_node at h
    exact Option.not_isSome_iff_eq_none.mp (by simp [h])
  refine ⟨?_, ?_, ?_, ?_⟩ <;>
    simp [is_peer, is_local_router, is_network, is_router, hl, Bind.bind, Except.bind]

/-- C10 witness: the predicates at a node absent from the empty graph. -/
theorem c10_witness :
    is_peer ⟨[], []⟩ "x" = .ok false ∧ is_local_router ⟨[], []⟩ "x" = .ok false ∧
    is_network ⟨[], []⟩ "x" = .ok false ∧ is_router ⟨[], []⟩ "x" = .ok false :=
  c10_type_predicates_total ⟨[], []⟩ "x" rfl

end CEGS

namespace CEGS

/-- An advertised announcement of an external peer (prefix name plus the
extra AS-path carried in the original announcement), the two fields of it
that new_propagation.py reads. -/
structure Ann where
  net : String
  as_path : List Nat
deriving DecidableEq, Repr

/-- The view of the NetworkGraph that new_propagation.py consumes: the node
dictionary with the vertex type, the directed adjacency used by
neighbors(), the BGP AS-number attribute (absent means BGP disabled), the
configured BGP neighbor dictionary keys of each router, and the
advertisements of each router.  All dictionaries keep insertion order. -/
structure Topo where
  nodes : List (String × VERTEXTYPE)
  adj : List (String × String)
  asn : List (String × Nat)
  nbrs : List (String × List String)
  anns : List (String × List Ann)
deriving DecidableEq, Repr

/-- NetworkGraph.is_router restricted to typed nodes: True for local routers
and peers. -/
def t_is_router (t : Topo) (n : String) : Bool :=
  match t.nodes.lookup n with
  | some VERTEXTYPE.ROUTER => true
  | some VERTEXTYPE.PEER => true
  | _ => false

/-- NetworkGraph.get_bgp_asnum. -/
def get_bgp_asnum (t : Topo) (n : String) : Option Nat :=
  t.asn.lookup n

/-- NetworkGraph.is_bgp_enabled. -/
def is_bgp_enabled (t : Topo) (n : String) : Bool :=
  (get_bgp_asnum t n).isSome

/-- networkx DiGraph.neighbors: the successor list of a node. -/
def neighbors (t : Topo) (n : String) : List String :=
  (t.adj.filter (fun e => e.1 = n)).map (fun e => e.2)

/-- NetworkGraph.get_bgp_neighbors key list. -/
def get_bgp_neighbors (t : Topo) (n : String) : List String :=
  (t.nbrs.lookup n).getD []

/-- NetworkGraph.get_bgp_advertise. -/
def get_bgp_advertise (t : Topo) (n : String) : List Ann :=
  (t.anns.lookup n).getD []

/-- NetworkGraph.routers_iter: the graph nodes that are routers, in node
insertion order. -/
def routers_iter (t : Topo) : List String :=
  (t.nodes.map Prod.fst).filter (fun n => t_is_router t n)

/-- Append a router to the AS-number grouping map, preserving first-seen key
order, as inserting into the Python dict of lists does. -/
def assoc_append : List (Nat × List String) → Nat → String → List (Nat × List String)
  | [], a, n => [(a, [n])]
  | (k, l) :: rest, a, n =>
      if k = a then (k, l ++ [n]) :: rest
      else (k, l) :: assoc_append rest a n

/-- The asmap of extract_ibgp_zones: AS number to the BGP-enabled routers
announcing it, grouped over routers_iter. -/
def asmap (t : Topo) : List (Nat × List String) :=
  (routers_iter t).foldl
    (fun acc n =>
      match get_bgp_asnum t n with
      | none => acc
      | some a => assoc_append acc a n)
    []

/-- The per-AS iBGP zone graph grown by extract_ibgp_zones
(an undirected networkx Graph: node list and edge list without
duplicates). -/
structure ZGraph where
  znodes : List String
  zedges : List (String × String)
deriving DecidableEq, Repr

/-- networkx Graph.add_node. -/
def zone_add_node (g : ZGraph) (n : String) : ZGraph :=
  if n ∈ g.znodes then g else { g with znodes := g.znodes ++ [n] }

/-- networkx Graph.add_edge: inserts missing endpoints, records the
undirected edge once. -/
def zone_add_edge (g : ZGraph) (u v : String) : ZGraph :=
  let g2 := zone_add_node (zone_add_node g u) v
  if (u, v) ∈ g2.zedges ∨ (v, u) ∈ g2.zedges then g2
  else { g2 with zedges := g2.zedges ++ [(u, v)] }

/-- One growth pass of extract_ibgp_zones over the current node snapshot:
for each node, every neighboring router joins the zone when it is in the
same AS or is not BGP enabled. -/
def zone_pass (t : Topo) (a : Nat) (snapshot : List String) (g : ZGraph) : ZGraph :=
  snapshot.foldl
    (fun g node =>
      (neighbors t node).foldl
        (fun g nb =>
          if t_is_router t nb then
            match get_bgp_asnum t nb with
            | some b => if b = a then zone_add_edge g node nb else g
            | none => zone_add_edge g node nb
          else g)
        g)
    g

/-- The fixed-point loop of extract_ibgp_zones: repeat zone_pass until a
full pass changes neither the node count nor the edge count.  The fuel
bounds the number of passes; extract_ibgp_zones supplies enough fuel to
reach the fixed point since each non-final pass strictly grows the graph. -/
def grow_zone (t : Topo) (a : Nat) : Nat → List String → ZGraph → ZGraph
  | 0, _, g => g
  | fuel + 1, snapshot, g =>
      let g2 := zone_pass t a snapshot g
      if g2.znodes.length = g.znodes.length ∧ g2.zedges.length = g.zedges.length
      then g2
      else grow_zone t a fuel g2.znodes g2

/-- EBGPPropagation.extract_ibgp_zones: one grown zone graph per AS number,
seeded with the routers of that AS. -/
def extract_ibgp_zones (t : Topo) : List (Nat × ZGraph) :=
  (asmap t).map
    (fun p =>
      (p.1,
        grow_zone t p.1 (t.nodes.length * t.nodes.length + t.nodes.length + 1)
          p.2 (p.2.foldl zone_add_node ⟨[], []⟩)))

/-- Association-list lookup skips an entry with a different key. -/
theorem lookup_cons_ne {κ β : Type} [BEq κ] [LawfulBEq κ] (k a : κ) (b : β)
    (es : List (κ × β)) (h : a ≠ k) :
    ((k, b) :: es).lookup a = es.lookup a := by
  rw [List.lookup_cons]
  have hb : (a == k) = false := beq_eq_false_iff_ne.mpr h
  rw [hb]

/-- A successful association-list lookup exhibits a member entry. -/
theorem lookup_mem {κ β : Type} [BEq κ] [LawfulBEq κ] :
    ∀ (l : List (κ × β)) (k : κ) (v : β), l.lookup k = some v → (k, v) ∈ l := by
  intro l
  induction l with
  | nil => intro k v h; simp at h
  | cons q qs ih =>
    intro k v h
    obtain ⟨k2, v2⟩ := q
    by_cases hk : k = k2
    · subst hk
      rw [List.lookup_cons_self] at h
      injection h with h
      subst h
      exact List.mem_cons_self _ _
    · rw [lookup_cons_ne k2 k v2 qs hk] at h
      exact List.mem_cons_of_mem _ (ih k v h)

/-- assoc_append puts the appended router under its own key. -/
theorem lookup_assoc_append_self (acc : List (Nat × List String)) (b : Nat)
    (m : String) :
    ∃ l, (assoc_append acc b m).lookup b = some l ∧ m ∈ l := by
  induction acc with
  | nil => exact ⟨[m], by simp [assoc_append], by simp⟩
  | cons q qs ihq =>
    obtain ⟨k, lq⟩ := q
    by_cases hk : k = b
    · subst hk
      exact ⟨lq ++ [m], by simp [assoc_append], by simp⟩
    · obtain ⟨l, hl, hm⟩ := ihq
      refine ⟨l, ?_, hm⟩
      rw [show assoc_append ((k, lq) :: qs) b m = (k, lq) :: assoc_append qs b m by
            simp [assoc_append, hk]]
      rw [lookup_cons_ne k b lq _ (Ne.symm hk)]
      exact hl

/-- assoc_append keeps every router already stored under any key. -/
theorem lookup_assoc_append_sub (acc : List (Nat × List String)) (b : Nat)
    (m : String) (c : Nat) (l : List String) (hc : acc.lookup c = some l) :
    ∃ l2, (assoc_append acc b m).lookup c = some l2 ∧ ∀ x ∈ l, x ∈ l2 := by
  induction acc with
  | nil => simp at hc
  | cons q qs ihq =>
    obtain ⟨k, lq⟩ := q
    by_cases hkc : c = k
    · subst hkc
      rw [List.lookup_cons_self] at hc
      injection hc with hc
      subst hc
      by_cases hk : c = b
      · subst hk
        exact ⟨lq ++ [m], by simp [assoc_append],
          fun x hx => List.mem_append_left _ hx⟩
      · refine ⟨lq, ?_, fun x hx => hx⟩
        rw [show assoc_append ((c, lq) :: qs) b m = (c, lq) :: assoc_append qs b m by
              simp [assoc_append, hk]]
        exact List.lookup_cons_self
    · rw [lookup_cons_ne k c lq qs hkc] at hc
      obtain ⟨l2, hl2, hsub⟩ := ihq hc
      by_cases hk : k = b
      · subst hk
        refine ⟨l, ?_, fun x hx => hx⟩
        rw [show assoc_append ((k, lq) :: qs) k m = (k, lq ++ [m]) :: qs by
              simp [assoc_append]]
        rw [lookup_cons_ne k c (lq ++ [m]) qs hkc]
        exact hc
      · refine ⟨l2, ?_, hsub⟩
        rw [show assoc_append ((k, lq) :: qs) b m = (k, lq) :: assoc_append qs b m by
              simp [assoc_append, hk]]
        rw [lookup_cons_ne k c lq _ hkc]
        exact hl2

/-- assoc_append preserves the entry property that every stored router
announces exactly the key AS. -/
theorem assoc_append_entries (t : Topo) (acc : List (Nat × List String))
    (b : Nat) (m : String)
    (hacc : ∀ p ∈ acc, ∀ n ∈ p.2, get_bgp_asnum t n = some p.1)
    (hm : get_bgp_asnum t m = some b) :
    ∀ p ∈ assoc_append acc b m, ∀ n ∈ p.2, get_bgp_asnum t n = some p.1 := by
  induction acc with
  | nil =>
    intro p hp n hn
    simp [assoc_append] at hp
    subst hp
    simp at hn
    subst hn
    simpa using hm
  | cons q qs ihq =>
    obtain ⟨k, lq⟩ := q
    by_cases hk : k = b
    · subst hk
      intro p hp n hn
      rw [show assoc_append ((k, lq) :: qs) k m = (k, lq ++ [m]) :: qs by
            simp [assoc_append]] at hp
      rcases List.mem_cons.mp hp with hp | hp
      · subst hp
        simp only at hn
        rcases List.mem_append.mp hn with hn | hn
        · exact hacc (k, lq) (by simp) n hn
        · simp at hn
          subst hn
          simpa using hm
      · exact hacc p (List.mem_cons_of_mem _ hp) n hn
    · intro p hp n hn
      rw [show assoc_append ((k, lq) :: qs) b m = (k, lq) :: assoc_append qs b m by
            simp [assoc_append, hk]] at hp
      rcases List.mem_cons.mp hp with hp | hp
      · subst hp
        exact hacc (k, lq) (by simp) n hn
      · exact ihq (fun r hr => hacc r (List.mem_cons_of_mem _ hr)) p hp n hn

/-- Every router stored in an asmap entry announces exactly the key AS. -/
theorem asmap_entry_asn (t : Topo) :
    ∀ p ∈ asmap t, ∀ n ∈ p.2, get_bgp_asnum t n = some p.1 := by
  have step :
      ∀ (l : List String) (acc : List (Nat × List String)),
        (∀ p ∈ acc, ∀ n ∈ p.2, get_bgp_asnum t n = some p.1) →
        ∀ p ∈ l.foldl
            (fun acc n =>
              match get_bgp_asnum t n with
              | none => acc
              | some a => assoc_append acc a n) acc,
          ∀ n ∈ p.2, get_bgp_asnum t n = some p.1 := by
    intro l
    induction l with
    | nil => intro acc hacc; simpa using hacc
    | cons x xs ih =>
      intro acc hacc
      simp only [List.foldl_cons]
      cases hx : get_bgp_asnum t x with
      | none => exact ih acc hacc
      | some a => exact ih _ (assoc_append_entries t acc a x hacc hx)
  intro p hp
  exact step (routers_iter t) [] (by simp) p hp

/-- A BGP-enabled router is listed in the asmap entry of its AS number. -/
theorem asmap_mem (t : Topo) (r : String) (a : Nat)
    (hr : r ∈ routers_iter t) (ha : get_bgp_asnum t r = some a) :
    ∃ l, (asmap t).lookup a = some l ∧ r ∈ l := by
  have main :
      ∀ (l : List String) (acc : List (Nat × List String)),
        (∃ l0, acc.lookup a = some l0 ∧ r ∈ l0) ∨ r ∈ l →
        ∃ l0,
          (l.foldl
              (fun acc n =>
                match get_bgp_asnum t n with
                | none => acc
                | some b => assoc_append acc b n) acc).lookup a = some l0 ∧
          r ∈ l0 := by
    intro l
    induction l with
    | nil =>
      intro acc h
      rcases h with h | h
      · simpa using h
      · simp at h
    | cons x xs ih =>
      intro acc h
      simp only [List.foldl_cons]
      cases hx : get_bgp_asnum t x with
      | none =>
        rcases h with h | h
        · exact ih acc (Or.inl h)
        · rcases List.mem_cons.mp h with h | h
          · subst h
            rw [hx] at ha
            exact absurd ha (by simp)
          · exact ih acc (Or.inr h)
      | some b =>
        rcases h with h | h
        · obtain ⟨l0, hl0, hr0⟩ := h
          obtain ⟨l2, hl2, hsub⟩ := lookup_assoc_append_sub acc b x a l0 hl0
          exact ih _ (Or.inl ⟨l2, hl2, hsub r hr0⟩)
        · rcases List.mem_cons.mp h with h | h
          · subst h
            rw [hx] at ha
            have hab : b = a := by
              injection ha
            subst hab
            obtain ⟨l0, hl0, hm0⟩ := lookup_assoc_append_self acc b r
            exact ih _ (Or.inl ⟨l0, hl0, hm0⟩)
          · exact ih _ (Or.inr h)
  exact main (routers_iter t) [] (Or.inr hr)

/-- Membership in the zone graph after zone_add_node. -/
theorem zone_add_node_mem (g : ZGraph) (m x : String) :
    x ∈ (zone_add_node g m).znodes ↔ x ∈ g.znodes ∨ x = m := by
  unfold zone_add_node
  by_cases hm : m ∈ g.znodes
  · simp only [hm, if_true]
    constructor
    · exact fun h => Or.inl h
    · rintro (h | h)
      · exact h
      · subst h; exact hm
  · simp [hm]

/-- Membership in the zone graph after zone_add_edge. -/
theorem zone_add_edge_mem (g : ZGraph) (u v x : String) :
    x ∈ (zone_add_edge g u v).znodes ↔ x ∈ g.znodes ∨ x = u ∨ x = v := by
  unfold zone_add_edge
  by_cases he :
      (u, v) ∈ (zone_add_node (zone_add_node g u) v).zedges ∨
      (v, u) ∈ (zone_add_node (zone_add_node g u) v).zedges
  · simp only [he, if_true]
    rw [zone_add_node_mem, zone_add_node_mem]
    tauto
  · simp only [he, if_false]
    show x ∈ (zone_add_node (zone_add_node g u) v).znodes ↔ _
    rw [zone_add_node_mem, zone_add_node_mem]
    tauto

/-- A node present in the zone graph survives zone_pass. -/
theorem zone_pass_mono (t : Topo) (a : Nat) (snapshot : List String)
    (g : ZGraph) (x : String) (hx : x ∈ g.znodes) :
    x ∈ (zone_pass t a snapshot g).znodes := by
  unfold zone_pass
  induction snapshot generalizing g with
  | nil => exact hx
  | cons nd rest ih =>
    simp only [List.foldl_cons]
    apply ih
    induction neighbors t nd generalizing g with
    | nil => exact hx
    | cons nb ns ihn =>
      simp only [List.foldl_cons]
      by_cases hrt : t_is_router t nb
      · cases hb : get_bgp_asnum t nb with
        | none =>
          apply ihn
          simp [hrt, hb, zone_add_edge_mem, hx]
        | some b =>
          by_cases hba : b = a
          · apply ihn
            simp [hrt, hb, hba, zone_add_edge_mem, hx]
          · apply ihn
            simp [hrt, hb, hba, hx]
      · apply ihn
        simp [hrt, hx]

/-- Every node of the graph after zone_pass was already there, is a router
of the zone AS, or is a non-BGP router. -/
theorem zone_pass_inv (t : Topo) (a : Nat) (snapshot : List String)
    (g : ZGraph)
    (hg : ∀ n ∈ g.znodes, ∀ b, get_bgp_asnum t n = some b → b = a)
    (hs : ∀ n ∈ snapshot, ∀ b, get_bgp_asnum t n = some b → b = a) :
    ∀ n ∈ (zone_pass t a snapshot g).znodes, ∀ b,
      get_bgp_asnum t n = some b → b = a := by
  unfold zone_pass
  induction snapshot generalizing g with
  | nil => exact hg
  | cons nd rest ih =>
    simp only [List.foldl_cons]
    apply ih
    · have hnd := hs nd (by simp)
      clear ih
      induction neighbors t nd generalizing g with
      | nil => exact hg
      | cons nb ns ihn =>
        simp only [List.foldl_cons]
        by_cases hrt : t_is_router t nb
        · cases hb : get_bgp_asnum t nb with
          | none =>
            apply ihn
            intro n hn b hnb
            rcases (zone_add_edge_mem g nd nb n).mp (by simpa [hrt, hb] using hn)
              with h | h | h
            · exact hg n h b hnb
            · subst h; exact hnd b hnb
            · subst h; rw [hb] at hnb; exact absurd hnb (by simp)
          | some b0 =>
            by_cases hba : b0 = a
            · apply ihn
              intro n hn b hnb
              rcases (zone_add_edge_mem g nd nb n).mp
                  (by simpa [hrt, hb, hba] using hn) with h | h | h
              · exact hg n h b hnb
              · subst h; exact hnd b hnb
              · subst h; rw [hb] at hnb
                injection hnb with hnb
                rw [← hnb]; exact hba
            · apply ihn
              intro n hn b hnb
              exact hg n (by simpa [hrt, hb, hba] using hn) b hnb
        · apply ihn
          intro n hn b hnb
          exact hg n (by simpa [hrt] using hn) b hnb
    · exact fun n hn => hs n (by simp [hn])

/-- A node present in the zone graph survives grow_zone. -/
theorem grow_zone_mono (t : Topo) (a : Nat) (fuel : Nat) :
    ∀ (snapshot : List String) (g : ZGraph) (x : String), x ∈ g.znodes →
      x ∈ (grow_zone t a fuel snapshot g).znodes := by
  induction fuel with
  | zero => intro snapshot g x hx; exact hx
  | succ fuel ih =>
    intro snapshot g x hx
    unfold grow_zone
    by_cases hsz :
        (zone_pass t a snapshot g).znodes.length = g.znodes.length ∧
        (zone_pass t a snapshot g).zedges.length = g.zedges.length
    · simpa [hsz] using zone_pass_mono t a snapshot g x hx
    · simpa [hsz] using
        ih _ _ x (zone_pass_mono t a snapshot g x hx)

/-- grow_zone preserves the AS-number invariant of zone members. -/
theorem grow_zone_inv (t : Topo) (a : Nat) (fuel : Nat) :
    ∀ (snapshot : List String) (g : ZGraph),
      (∀ n ∈ g.znodes, ∀ b, get_bgp_asnum t n = some b → b = a) →
      (∀ n ∈ snapshot, ∀ b, get_bgp_asnum t n = some b → b = a) →
      ∀ n ∈ (grow_zone t a fuel snapshot g).znodes, ∀ b,
        get_bgp_asnum t n = some b → b = a := by
  induction fuel with
  | zero => intro snapshot g hg _; exact hg
  | succ fuel ih =>
    intro snapshot g hg hs
    unfold grow_zone
    by_cases hsz :
        (zone_pass t a snapshot g).znodes.length = g.znodes.length ∧
        (zone_pass t a snapshot g).zedges.length = g.zedges.length
    · simpa [hsz] using zone_pass_inv t a snapshot g hg hs
    · simpa [hsz] using
        ih _ _ (zone_pass_inv t a snapshot g hg hs)
          (zone_pass_inv t a snapshot g hg hs)

/-- The seed fold only holds seed members, and holds all of them. -/
theorem seed_fold_mem (seed : List String) (x : String) :
    x ∈ (seed.foldl zone_add_node ⟨[], []⟩).znodes ↔ x ∈ seed := by
  have gen :
      ∀ (l : List String) (g : ZGraph),
        (x ∈ (l.foldl zone_add_node g).znodes ↔ x ∈ g.znodes ∨ x ∈ l) := by
    intro l
    induction l with
    | nil => intro g; simp
    | cons y ys ih =>
      intro g
      simp only [List.foldl_cons]
      rw [ih, zone_add_node_mem]
      simp
      tauto
  rw [gen seed ⟨[], []⟩]
  simp

/-- Lookup commutes with mapping a key-preserving function over an
association list. -/
theorem lookup_map_pair {β γ : Type} (f : Nat × β → γ) :
    ∀ (l : List (Nat × β)) (a : Nat) (b : β), l.lookup a = some b →
      (l.map (fun p => (p.1, f p))).lookup a = some (f (a, b)) := by
  intro l
  induction l with
  | nil => intro a b h; simp at h
  | cons q qs ih =>
    intro a b h
    obtain ⟨k, v⟩ := q
    by_cases hk : a = k
    · subst hk
      rw [List.lookup_cons_self] at h
      injection h with h
      subst h
      simp only [List.map_cons]
      exact List.lookup_cons_self
    · rw [lookup_cons_ne k a v qs hk] at h
      simp only [List.map_cons]
      rw [lookup_cons_ne k a _ _ hk]
      exact ih a b h

/-- Lookup through the extract_ibgp_zones map of asmap. -/
theorem extract_lookup (t : Topo) (a : Nat) (seed : List String)
    (h : (asmap t).lookup a = some seed) :
    (extract_ibgp_zones t).lookup a =
      some (grow_zone t a (t.nodes.length * t.nodes.length + t.nodes.length + 1)
        seed (seed.foldl zone_add_node ⟨[], []⟩)) := by
  unfold extract_ibgp_zones
  exact lookup_map_pair _ (asmap t) a seed h

/-- Every BGP-enabled member of an extracted zone announces the zone key. -/
theorem zone_member_asn (t : Topo) :
    ∀ p ∈ extract_ibgp_zones t, ∀ n ∈ p.2.znodes, ∀ b,
      get_bgp_asnum t n = some b → b = p.1 := by
  intro p hp
  unfold extract_ibgp_zones at hp
  obtain ⟨q, hq, hpq⟩ := List.mem_map.mp hp
  subst hpq
  intro n hn b hb
  refine grow_zone_inv t q.1 _ q.2 _ ?_ ?_ n hn b hb
  · intro m hm c hc
    have hmseed : m ∈ q.2 := (seed_fold_mem q.2 m).mp hm
    have h2 := asmap_entry_asn t q hq m hmseed
    rw [hc] at h2
    injection h2
  · intro m hm c hc
    have h2 := asmap_entry_asn t q hq m hm
    rw [hc] at h2
    injection h2

/-- C1: extract_ibgp_zones partitions the BGP-enabled routers: every router
with a BGP AS number appears in the zone keyed by its own AS number, and in
no zone keyed by a different AS number. -/
theorem c1_ibgp_zones_partition (t : Topo) (r : String) (a : Nat)
    (hr : r ∈ routers_iter t) (ha : get_bgp_asnum t r = some a) :
    (∃ z, (extract_ibgp_zones t).lookup a = some z ∧ r ∈ z.znodes) ∧
    (∀ p ∈ extract_ibgp_zones t, r ∈ p.2.znodes → p.1 = a) := by
  constructor
  · obtain ⟨seed, hseed, hrseed⟩ := asmap_mem t r a hr ha
    refine ⟨_, extract_lookup t a seed hseed, ?_⟩
    exact grow_zone_mono t a _ seed _ r ((seed_fold_mem seed r).mpr hrseed)
  · intro p hp hrp
    exact (zone_member_asn t p hp r hrp a ha).symm

/-- C1 witness: a two-router topology with distinct AS numbers. -/
def c1Topo : Topo :=
  { nodes := [("R1", VERTEXTYPE.ROUTER), ("R2", VERTEXTYPE.ROUTER)]
    adj := [("R1", "R2"), ("R2", "R1")]
    asn := [("R1", 100), ("R2", 200)]
    nbrs := [("R1", ["R2"]), ("R2", ["R1"])]
    anns := [] }

/-- C1 witness: the partition property evaluated on c1Topo for R1/AS 100. -/
theorem c1_witness :
    (∃ z, (extract_ibgp_zones c1Topo).lookup 100 = some z ∧ "R1" ∈ z.znodes) ∧
    (∀ p ∈ extract_ibgp_zones c1Topo, "R1" ∈ p.2.znodes → p.1 = 100) :=
  c1_ibgp_zones_partition c1Topo "R1" 100 (by decide) (by decide)

/-- The AS-sequence collapse of EBGPPropagation.get_bgp_path before its
final reversal: skip non-BGP routers and drop an AS equal to the previous
one. -/
def bgp_path_forward (t : Topo) (p : List String) : List Nat :=
  p.foldl
    (fun acc node =>
      match get_bgp_asnum t node with
      | none => acc
      | some a => if acc = [] ∨ acc.getLast? ≠ some a then acc ++ [a] else acc)
    []

/-- EBGPPropagation.get_bgp_path: the collapsed AS sequence in reversed
order. -/
def get_bgp_path (t : Topo) (p : List String) : List Nat :=
  (bgp_path_forward t p).reverse

/-- The tt list of expand_as_path: the zone node set of each AS of the
input sequence; a missing zone is the KeyError of the source. -/
def lookup_zones (zones : List (Nat × ZGraph)) : List Nat → Option (List (List String))
  | [] => some []
  | a :: rest =>
      match zones.lookup a with
      | none => none
      | some z =>
          match lookup_zones zones rest with
          | none => none
          | some tl => some (z.znodes :: tl)

/-- The extensions one frontier path receives at one non-final position of
expand_as_path: an eBGP hop to a neighbor of a different AS lying in the
next zone and not yet on the path, optionally followed by one iBGP hop to a
neighbor of that neighbor in the entered AS. -/
def exts (t : Topo) (tt : List (List String)) (index : Nat) (p : List String) :
    List (List String) :=
  (get_bgp_neighbors t (p.getLastD "")).flatMap
    (fun nb =>
      if get_bgp_asnum t (p.getLastD "") ≠ get_bgp_asnum t nb ∧
          nb ∉ p ∧ nb ∈ tt.getD (index + 1) [] then
        (p ++ [nb]) ::
          (get_bgp_neighbors t nb).filterMap
            (fun nn =>
              if get_bgp_asnum t (p.getLastD "") ≠ get_bgp_asnum t nb ∧
                  get_bgp_asnum t nb = get_bgp_asnum t nn
              then some (p ++ [nb, nn]) else none)
      else [])

/-- One position of the expand_as_path loop: iterate over a snapshot of the
frontier, removing each processed path from the live list unless the
position is the last one, and appending its extensions. -/
def process_index (t : Topo) (tt : List (List String)) (index : Nat)
    (frontier : List (List String)) : List (List String) :=
  frontier.foldl
    (fun live p =>
      if index = tt.length - 1 then live
      else (live.erase p) ++ exts t tt index p)
    frontier

/-- EBGPPropagation.expand_as_path: expand an AS-number sequence into the
router-level paths realizing it, starting from the given origin routers,
iterating one position per element of tt; none models the KeyError on an AS
with no zone. -/
def expand_as_path (t : Topo) (zones : List (Nat × ZGraph)) (seq : List Nat)
    (origins : List String) : Option (List (List String)) :=
  match lookup_zones zones seq with
  | none => none
  | some tt =>
      some ((List.range tt.length).foldl
        (fun fr index => process_index t tt index fr)
        (origins.map (fun o => [o])))

/-- A two-router topology: R1 in AS 100, R2 in AS 200. -/
def c2Topo : Topo :=
  { nodes := [("R1", VERTEXTYPE.ROUTER), ("R2", VERTEXTYPE.ROUTER)]
    adj := []
    asn := [("R1", 100), ("R2", 200)]
    nbrs := []
    anns := [] }

/-- Three routers A, B, C with A, C in AS 100 and B in AS 200; BGP sessions
A-B, B-C and C-A, none reflexive, all between BGP-enabled routers. -/
def c2dT : Topo :=
  { nodes := [("A", VERTEXTYPE.ROUTER), ("B", VERTEXTYPE.ROUTER),
              ("C", VERTEXTYPE.ROUTER)]
    adj := []
    asn := [("A", 100), ("B", 200), ("C", 100)]
    nbrs := [("A", ["B"]), ("B", ["A", "C"]), ("C", ["B", "A"])]
    anns := [] }

/-- Routers A (AS 100) and B (AS 200) plus a router N with BGP disabled,
physically adjacent to B (so N joins the AS 200 zone); A has a configured
BGP session to the non-BGP router N. -/
def c2nT : Topo :=
  { nodes := [("A", VERTEXTYPE.ROUTER), ("B", VERTEXTYPE.ROUTER),
              ("N", VERTEXTYPE.ROUTER)]
    adj := [("B", "N"), ("N", "B")]
    asn := [("A", 100), ("B", 200)]
    nbrs := [("A", ["N"])]
    anns := [] }

/-- Routers A (AS 100) and B (AS 200); B has a reflexive BGP session with
itself. -/
def c2sT : Topo :=
  { nodes := [("A", VERTEXTYPE.ROUTER), ("B", VERTEXTYPE.ROUTER)]
    adj := []
    asn := [("A", 100), ("B", 200)]
    nbrs := [("A", ["B"]), ("B", ["B"])]
    anns := [] }

/-- C2 counterexample: the claim fails as stated, in both of its halves,
and each failure mode below forces one hypothesis of the amended theorem.
(a) Foreign origin: on the sequence (100,) with origin R2 of AS 200 the
path (R2,) is returned although it collapses to (200,) — the source never
checks the origin's AS.  (b) Duplicated AS number: on (100, 200, 100) with
the valid origin A of AS 100, every session between BGP-enabled routers
and none reflexive, the iBGP double-hop of the source (which never tests
membership of the second hop in the path) returns the router-revisiting
path (A, B, C, A).  (c) Session to a non-BGP router: the returned path
(A, N) collapses to (100,), not (100, 200).  (d) Reflexive session: the
double-hop returns the router-revisiting path (A, B, B). -/
theorem c2_counterexample :
    (expand_as_path c2Topo (extract_ibgp_zones c2Topo) [100] ["R2"] =
        some [["R2"]] ∧
      bgp_path_forward c2Topo ["R2"] ≠ [100]) ∧
    (expand_as_path c2dT (extract_ibgp_zones c2dT) [100, 200, 100] ["A"] =
        some [["A", "B", "C"], ["A", "B", "C", "A"]] ∧
      ¬ (["A", "B", "C", "A"] : List String).Nodup ∧
      (∀ pr ∈ c2dT.nbrs, ∀ m ∈ pr.2, (get_bgp_asnum c2dT m).isSome) ∧
      (∀ pr ∈ c2dT.nbrs, pr.1 ∉ pr.2) ∧
      (∀ o ∈ ["A"], get_bgp_asnum c2dT o = some 100)) ∧
    (expand_as_path c2nT (extract_ibgp_zones c2nT) [100, 200] ["A"] =
        some [["A", "N"]] ∧
      bgp_path_forward c2nT ["A", "N"] ≠ [100, 200] ∧
      (∀ pr ∈ c2nT.nbrs, pr.1 ∉ pr.2) ∧
      ([100, 200] : List Nat).Nodup ∧
      (∀ o ∈ ["A"], get_bgp_asnum c2nT o = some 100)) ∧
    (expand_as_path c2sT (extract_ibgp_zones c2sT) [100, 200] ["A"] =
        some [["A", "B"], ["A", "B", "B"]] ∧
      ¬ (["A", "B", "B"] : List String).Nodup ∧
      (∀ pr ∈ c2sT.nbrs, ∀ m ∈ pr.2, (get_bgp_asnum c2sT m).isSome) ∧
      ([100, 200] : List Nat).Nodup ∧
      (∀ o ∈ ["A"], get_bgp_asnum c2sT o = some 100)) := by
  refine ⟨⟨rfl, by decide⟩,
    ⟨rfl, by decide, by decide, by decide, by decide⟩,
    ⟨rfl, by decide, by decide, by decide, by decide⟩,
    ⟨rfl, by decide, by decide, by decide, by decide⟩⟩

/-- A fold that keeps its state fixed returns the initial state. -/
theorem foldl_keep {α β : Type} : ∀ (s : List β) (init : α),
    s.foldl (fun live _ => live) init = init := by
  intro s
  induction s with
  | nil => intro init; rfl
  | cons _ rest ih =>
    intro init
    simp only [List.foldl_cons]
    exact ih init

/-- Iterating over a snapshot while erasing each processed element from the
live list and appending its extensions yields exactly the concatenated
extensions. -/
theorem foldl_erase_append {α : Type} [BEq α] [LawfulBEq α] (f : α → List α) :
    ∀ (s acc : List α),
      s.foldl (fun live p => live.erase p ++ f p) (s ++ acc) =
        acc ++ s.flatMap f := by
  intro s
  induction s with
  | nil => intro acc; simp
  | cons p rest ih =>
    intro acc
    simp only [List.foldl_cons, List.cons_append]
    rw [List.erase_cons_head]
    rw [show rest ++ acc ++ f p = rest ++ (acc ++ f p) by simp]
    rw [ih (acc ++ f p)]
    simp

/-- At the final position the loop body neither removes nor appends. -/
theorem process_index_last (t : Topo) (tt : List (List String)) (index : Nat)
    (fr : List (List String)) (h : index = tt.length - 1) :
    process_index t tt index fr = fr := by
  unfold process_index
  simp only [h, if_pos rfl]
  exact foldl_keep fr fr

/-- At a non-final position the loop replaces every snapshot path by its
extensions. -/
theorem process_index_not_last (t : Topo) (tt : List (List String))
    (index : Nat) (fr : List (List String)) (h : index ≠ tt.length - 1) :
    process_index t tt index fr = fr.flatMap (exts t tt index) := by
  unfold process_index
  simp only [if_neg h]
  have h2 := foldl_erase_append (exts t tt index) fr []
  simpa using h2

/-- Unfolding one appended router through the collapse fold. -/
theorem bpf_append_one (t : Topo) (p : List String) (n : String) :
    bgp_path_forward t (p ++ [n]) =
      match get_bgp_asnum t n with
      | none => bgp_path_forward t p
      | some a =>
          if bgp_path_forward t p = [] ∨
              (bgp_path_forward t p).getLast? ≠ some a
          then bgp_path_forward t p ++ [a] else bgp_path_forward t p := by
  unfold bgp_path_forward
  rw [List.foldl_append]
  rfl

/-- The collapse fold appends the AS of a BGP-enabled appended router unless
it equals the last collapsed AS. -/
theorem bpf_append_some (t : Topo) (p : List String) (n : String) (a : Nat)
    (h : get_bgp_asnum t n = some a) :
    bgp_path_forward t (p ++ [n]) =
      if bgp_path_forward t p = [] ∨ (bgp_path_forward t p).getLast? ≠ some a
      then bgp_path_forward t p ++ [a] else bgp_path_forward t p := by
  rw [bpf_append_one, h]

/-- The AS of any BGP-enabled router on a path occurs in the collapsed AS
sequence of the path. -/
theorem mem_bgp_path_forward (t : Topo) (p : List String) (x : String)
    (b : Nat) (hx : x ∈ p) (hb : get_bgp_asnum t x = some b) :
    b ∈ bgp_path_forward t p := by
  have gen :
      ∀ (l : List String) (acc : List Nat),
        (b ∈ acc ∨ ∃ y ∈ l, get_bgp_asnum t y = some b) →
        b ∈ l.foldl
          (fun acc node =>
            match get_bgp_asnum t node with
            | none => acc
            | some a =>
                if acc = [] ∨ acc.getLast? ≠ some a then acc ++ [a] else acc)
          acc := by
    intro l
    induction l with
    | nil =>
      intro acc h
      rcases h with h | h
      · exact h
      · simp at h
    | cons y ys ih =>
      intro acc h
      simp only [List.foldl_cons]
      cases hy : get_bgp_asnum t y with
      | none =>
        apply ih
        rcases h with h | h
        · exact Or.inl h
        · obtain ⟨z, hz, hzb⟩ := h
          rcases List.mem_cons.mp hz with hz | hz
          · subst hz; rw [hy] at hzb; exact absurd hzb (by simp)
          · exact Or.inr ⟨z, hz, hzb⟩
      | some a =>
        have hred :
            (match some a with
              | none => acc
              | some a =>
                  if acc = [] ∨ acc.getLast? ≠ some a then acc ++ [a] else acc) =
              if acc = [] ∨ acc.getLast? ≠ some a then acc ++ [a] else acc := rfl
        rw [hred]
        by_cases hc : acc = [] ∨ acc.getLast? ≠ some a
        · rw [if_pos hc]
          apply ih
          rcases h with h | h
          · exact Or.inl (List.mem_append_left _ h)
          · obtain ⟨z, hz, hzb⟩ := h
            rcases List.mem_cons.mp hz with hz | hz
            · subst hz
              rw [hy] at hzb
              injection hzb with hzb
              exact Or.inl (List.mem_append_right _ (by simp [hzb]))
            · exact Or.inr ⟨z, hz, hzb⟩
        · rw [if_neg hc]
          apply ih
          rcases h with h | h
          · exact Or.inl h
          · obtain ⟨z, hz, hzb⟩ := h
            rcases List.mem_cons.mp hz with hz | hz
            · subst hz
              rw [hy] at hzb
              injection hzb with hzb
              subst hzb
              push_neg at hc
              exact Or.inl (List.mem_of_getLast?_eq_some hc.2)
            · exact Or.inr ⟨z, hz, hzb⟩
  exact gen p [] (Or.inr ⟨x, hx, hb⟩)

/-- The specification of the tt list built by lookup_zones. -/
theorem lookup_zones_spec (zones : List (Nat × ZGraph)) :
    ∀ (seq : List Nat) (tt : List (List String)),
      lookup_zones zones seq = some tt →
      tt.length = seq.length ∧
      ∀ (j : Nat) (hj : j < seq.length), ∃ z,
        zones.lookup (seq.get ⟨j, hj⟩) = some z ∧ tt.getD j [] = z.znodes := by
  intro seq
  induction seq with
  | nil =>
    intro tt h
    simp [lookup_zones] at h
    subst h
    exact ⟨rfl, fun j hj => absurd hj (by simp)⟩
  | cons a rest ih =>
    intro tt h
    unfold lookup_zones at h
    cases hz : zones.lookup a with
    | none => rw [hz] at h; simp at h
    | some z =>
      rw [hz] at h
      cases htl : lookup_zones zones rest with
      | none => rw [htl] at h; simp at h
      | some tl =>
        rw [htl] at h
        injection h with h
        subst h
        obtain ⟨hlen, hspec⟩ := ih tl htl
        refine ⟨by simp [hlen], ?_⟩
        intro j hj
        cases j with
        | zero => exact ⟨z, hz, rfl⟩
        | succ j2 =>
          obtain ⟨z2, hz2, hzd⟩ := hspec j2 (by simpa using Nat.lt_of_succ_lt_succ hj)
          exact ⟨z2, hz2, hzd⟩

/-- In a duplicate-free sequence, the element at position j does not occur
among the first j elements. -/
theorem nodup_not_mem_take (seq : List Nat) (hseq : seq.Nodup) (j : Nat)
    (hj : j < seq.length) : seq.get ⟨j, hj⟩ ∉ seq.take j := by
  intro hmem
  obtain ⟨k, hk, hkeq⟩ := List.getElem_of_mem hmem
  have hk2 : k < j := by
    rw [List.length_take] at hk
    omega
  have hk3 : k < seq.length := by omega
  have e1 : (seq.take j)[k]? = some ((seq.take j)[k]) :=
    List.getElem?_eq_getElem hk
  rw [List.getElem?_take_of_lt hk2, List.getElem?_eq_getElem hk3] at e1
  injection e1 with e1
  have : seq[k] = seq[j] := by rw [e1, hkeq]; rfl
  have hkj := (List.Nodup.getElem_inj_iff hseq).mp this
  omega

/-- The path invariant of the expand_as_path frontier after position i has
been entered: the path is nonempty and duplicate-free, its collapsed AS
sequence is exactly the first i+1 elements of the input sequence, its last
router announces the AS at position i, and every router on it announces an
AS among the first i+1 elements. -/
def c2inv (t : Topo) (seq : List Nat) (i : Nat) (p : List String) : Prop :=
  p ≠ [] ∧ p.Nodup ∧ bgp_path_forward t p = seq.take (i + 1) ∧
  (∃ lst, p.getLast? = some lst ∧ get_bgp_asnum t lst = seq[i]?) ∧
  (∀ x ∈ p, ∃ b, get_bgp_asnum t x = some b ∧ b ∈ seq.take (i + 1))

/-- One extension step preserves the frontier invariant, moving it one
position forward. -/
theorem exts_inv (t : Topo) (seq : List Nat) (tt : List (List String))
    (hzone : ∀ (j : Nat) (hj : j < seq.length), ∀ n ∈ tt.getD j [], ∀ b,
      get_bgp_asnum t n = some b → b = seq.get ⟨j, hj⟩)
    (hnbr_bgp : ∀ pr ∈ t.nbrs, ∀ m ∈ pr.2, (get_bgp_asnum t m).isSome)
    (hnbr_self : ∀ pr ∈ t.nbrs, pr.1 ∉ pr.2)
    (hseq : seq.Nodup)
    (i : Nat) (hi : i + 1 < seq.length)
    (p : List String) (hp : c2inv t seq i p) :
    ∀ q ∈ exts t tt i p, c2inv t seq (i + 1) q := by
  obtain ⟨hne, hnd, hcol, ⟨lst, hlast, hlasta⟩, hmem⟩ := hp
  have hi0 : i < seq.length := Nat.lt_of_succ_lt hi
  have hnbr_bgp2 : ∀ n m, m ∈ get_bgp_neighbors t n →
      (get_bgp_asnum t m).isSome := by
    intro n m hm
    unfold get_bgp_neighbors at hm
    cases hl : t.nbrs.lookup n with
    | none => rw [hl] at hm; simp at hm
    | some l =>
      rw [hl] at hm
      exact hnbr_bgp (n, l) (lookup_mem t.nbrs n l hl) m hm
  have hnbr_self2 : ∀ n, n ∉ get_bgp_neighbors t n := by
    intro n hmm
    unfold get_bgp_neighbors at hmm
    cases hl : t.nbrs.lookup n with
    | none => rw [hl] at hmm; simp at hmm
    | some l =>
      rw [hl] at hmm
      exact hnbr_self (n, l) (lookup_mem t.nbrs n l hl) hmm
  have hlastd : p.getLastD "" = lst := by
    rw [List.getLastD_eq_getLast?, hlast]
    rfl
  have hlasta2 : get_bgp_asnum t lst = some (seq.get ⟨i, hi0⟩) := by
    rw [hlasta]
    exact List.getElem?_eq_getElem hi0
  intro q hq
  unfold exts at hq
  rw [List.mem_flatMap] at hq
  obtain ⟨nb, hnb, hqin⟩ := hq
  rw [hlastd] at hnb hqin
  by_cases hcond : get_bgp_asnum t lst ≠ get_bgp_asnum t nb ∧ nb ∉ p ∧
      nb ∈ tt.getD (i + 1) []
  case neg =>
    rw [if_neg hcond] at hqin
    simp at hqin
  case pos =>
  rw [if_pos hcond] at hqin
  obtain ⟨hcas, hnbp, hnbz⟩ := hcond
  obtain ⟨b, hb⟩ := Option.isSome_iff_exists.mp (hnbr_bgp2 lst nb hnb)
  have hbz : b = seq.get ⟨i + 1, hi⟩ := hzone (i + 1) hi nb hnbz b hb
  subst hbz
  have hneq : seq.get ⟨i, hi0⟩ ≠ seq.get ⟨i + 1, hi⟩ := by
    intro h
    apply hcas
    rw [hlasta2, hb, h]
  have htak : seq.take (i + 2) = seq.take (i + 1) ++ [seq.get ⟨i + 1, hi⟩] := by
    rw [List.take_succ, List.getElem?_eq_getElem hi]
    rfl
  have htlast : (seq.take (i + 1)).getLast? = some (seq.get ⟨i, hi0⟩) := by
    rw [List.getLast?_eq_getElem?, List.length_take]
    have hmin : min (i + 1) seq.length = i + 1 := by omega
    rw [hmin]
    simp only [Nat.add_sub_cancel]
    rw [List.getElem?_take_of_lt (Nat.lt_succ_self i)]
    exact List.getElem?_eq_getElem hi0
  have hsmem : seq.get ⟨i + 1, hi⟩ ∉ seq.take (i + 1) :=
    nodup_not_mem_take seq hseq (i + 1) hi
  have hcolnb : bgp_path_forward t (p ++ [nb]) = seq.take (i + 2) := by
    rw [bpf_append_some t p nb _ hb, hcol]
    rw [if_pos (Or.inr (by
      rw [htlast]
      intro hx
      injection hx with hx
      exact hneq hx))]
    rw [htak]
  rcases List.mem_cons.mp hqin with hq1 | hq2
  · subst hq1
    refine ⟨by simp, ?_, hcolnb, ?_, ?_⟩
    · rw [List.nodup_append]
      refine ⟨hnd, List.nodup_singleton _, ?_⟩
      intro x hx hx2
      simp at hx2
      subst hx2
      exact hnbp hx
    · refine ⟨nb, List.getLast?_concat p, ?_⟩
      rw [hb]
      exact (List.getElem?_eq_getElem hi).symm
    · intro x hx
      rcases List.mem_append.mp hx with hx | hx
      · obtain ⟨bx, hbx, hbxm⟩ := hmem x hx
        exact ⟨bx, hbx, by rw [htak]; exact List.mem_append_left _ hbxm⟩
      · simp at hx
        subst hx
        exact ⟨_, hb, by rw [htak]; exact List.mem_append_right _ (by simp)⟩
  · rw [List.mem_filterMap] at hq2
    obtain ⟨nn, hnn, hnnq⟩ := hq2
    by_cases hcond2 : get_bgp_asnum t lst ≠ get_bgp_asnum t nb ∧
        get_bgp_asnum t nb = get_bgp_asnum t nn
    case neg =>
      rw [if_neg hcond2] at hnnq
      simp at hnnq
    case pos =>
    rw [if_pos hcond2] at hnnq
    injection hnnq with hnnq
    subst hnnq
    obtain ⟨-, hnnas⟩ := hcond2
    have hnnb : get_bgp_asnum t nn = some (seq.get ⟨i + 1, hi⟩) := by
      rw [← hnnas, hb]
    have hnnnotp : nn ∉ p := by
      intro hin
      obtain ⟨bx, hbx, hbxm⟩ := hmem nn hin
      rw [hnnb] at hbx
      injection hbx with hbx
      rw [← hbx] at hbxm
      exact hsmem hbxm
    have hnnnb : nn ≠ nb := by
      intro h
      rw [← h] at hnn
      exact hnbr_self2 nn hnn
    have heq2 : p ++ [nb, nn] = (p ++ [nb]) ++ [nn] := by simp
    have hcolnn : bgp_path_forward t (p ++ [nb, nn]) = seq.take (i + 2) := by
      have hnot : ¬(seq.take (i + 2) = [] ∨
          (seq.take (i + 2)).getLast? ≠ some (seq.get ⟨i + 1, hi⟩)) := by
        intro hor
        rcases hor with hor | hor
        · have hl := congrArg List.length hor
          rw [htak] at hl
          simp at hl
          rw [hl] at hi
          simp at hi
        · apply hor
          rw [htak]
          exact List.getLast?_concat _
      rw [heq2, bpf_append_some t (p ++ [nb]) nn _ hnnb, hcolnb, if_neg hnot]
    refine ⟨by simp, ?_, hcolnn, ?_, ?_⟩
    · rw [heq2, List.nodup_append]
      refine ⟨?_, List.nodup_singleton _, ?_⟩
      · rw [List.nodup_append]
        refine ⟨hnd, List.nodup_singleton _, ?_⟩
        intro x hx hx2
        simp at hx2
        subst hx2
        exact hnbp hx
      · intro x hx hx2
        simp at hx2
        subst hx2
        rcases List.mem_append.mp hx with hx | hx
        · exact hnnnotp hx
        · simp at hx
          exact hnnnb hx
    · refine ⟨nn, by rw [heq2]; exact List.getLast?_concat _, ?_⟩
      rw [hnnb]
      exact (List.getElem?_eq_getElem hi).symm
    · intro x hx
      rcases List.mem_append.mp hx with hx | hx
      · obtain ⟨bx, hbx, hbxm⟩ := hmem x hx
        exact ⟨bx, hbx, by rw [htak]; exact List.mem_append_left _ hbxm⟩
      · rcases List.mem_cons.mp hx with hx | hx
        · subst hx
          exact ⟨_, hb, by rw [htak]; exact List.mem_append_right _ (by simp)⟩
        · simp at hx
          subst hx
          exact ⟨_, hnnb, by rw [htak]; exact List.mem_append_right _ (by simp)⟩

/-- The frontier invariant after processing the first i positions of the
expand_as_path loop. -/
theorem expand_range_inv (t : Topo) (seq : List Nat) (tt : List (List String))
    (hlen : tt.length = seq.length)
    (hzone : ∀ (j : Nat) (hj : j < seq.length), ∀ n ∈ tt.getD j [], ∀ b,
      get_bgp_asnum t n = some b → b = seq.get ⟨j, hj⟩)
    (hnbr_bgp : ∀ pr ∈ t.nbrs, ∀ m ∈ pr.2, (get_bgp_asnum t m).isSome)
    (hnbr_self : ∀ pr ∈ t.nbrs, pr.1 ∉ pr.2)
    (hseq : seq.Nodup)
    (hpos : 0 < seq.length)
    (init : List (List String))
    (hinit : ∀ p ∈ init, c2inv t seq 0 p) :
    ∀ (i : Nat), i ≤ tt.length →
      ∀ p ∈ (List.range i).foldl
          (fun fr index => process_index t tt index fr) init,
        c2inv t seq (min i (seq.length - 1)) p := by
  intro i
  induction i with
  | zero =>
    intro _ p hp
    simpa using hinit p hp
  | succ i ih =>
    intro hle p hp
    rw [List.range_succ, List.foldl_append] at hp
    simp only [List.foldl_cons, List.foldl_nil] at hp
    by_cases hlast : i = tt.length - 1
    · rw [process_index_last t tt i _ hlast] at hp
      have h2 := ih (by omega) p hp
      have hmeq : min i (seq.length - 1) = min (i + 1) (seq.length - 1) := by
        omega
      rw [← hmeq]
      exact h2
    · have hilt : i < seq.length - 1 := by omega
      rw [process_index_not_last t tt i _ hlast] at hp
      rw [List.mem_flatMap] at hp
      obtain ⟨p0, hp0, hpe⟩ := hp
      have h0 := ih (by omega) p0 hp0
      have hm1 : min i (seq.length - 1) = i := by omega
      rw [hm1] at h0
      have hstep := exts_inv t seq tt hzone hnbr_bgp hnbr_self hseq i
        (by omega) p0 h0 p hpe
      have hm2 : min (i + 1) (seq.length - 1) = i + 1 := by omega
      rw [hm2]
      exact hstep

/-- C2 amended: under a sketch whose BGP sessions run only between
BGP-enabled routers and never from a router to itself, for a duplicate-free
AS-number sequence and origin routers announcing the first AS of the
sequence, every router path returned by expand_as_path collapses back to
exactly the input AS-number sequence and repeats no router.  (As stated the
claim fails for origins outside the first AS, see the counterexample.) -/
theorem c2_expand_as_path_amended (t : Topo) (a0 : Nat) (rest : List Nat)
    (origins : List String) (res : List (List String))
    (hnbr_bgp : ∀ pr ∈ t.nbrs, ∀ m ∈ pr.2, (get_bgp_asnum t m).isSome)
    (hnbr_self : ∀ pr ∈ t.nbrs, pr.1 ∉ pr.2)
    (hseq : (a0 :: rest).Nodup)
    (horig : ∀ o ∈ origins, get_bgp_asnum t o = some a0)
    (hres : expand_as_path t (extract_ibgp_zones t) (a0 :: rest) origins =
      some res) :
    ∀ p ∈ res, bgp_path_forward t p = a0 :: rest ∧ p.Nodup := by
  unfold expand_as_path at hres
  cases hlz : lookup_zones (extract_ibgp_zones t) (a0 :: rest) with
  | none => rw [hlz] at hres; simp at hres
  | some tt =>
    rw [hlz] at hres
    injection hres with hres
    subst hres
    obtain ⟨hlen, hspec⟩ := lookup_zones_spec (extract_ibgp_zones t) _ tt hlz
    have hzone : ∀ (j : Nat) (hj : j < (a0 :: rest).length),
        ∀ n ∈ tt.getD j [], ∀ b, get_bgp_asnum t n = some b →
          b = (a0 :: rest).get ⟨j, hj⟩ := by
      intro j hj n hn b hb
      obtain ⟨z, hz, hzd⟩ := hspec j hj
      rw [hzd] at hn
      have hzmem := lookup_mem _ _ _ hz
      exact zone_member_asn t _ hzmem n hn b hb
    have hinit : ∀ p ∈ origins.map (fun o => [o]), c2inv t (a0 :: rest) 0 p := by
      intro p hp
      rw [List.mem_map] at hp
      obtain ⟨o, ho, hpo⟩ := hp
      subst hpo
      refine ⟨by simp, List.nodup_singleton _, ?_, ?_, ?_⟩
      · show bgp_path_forward t [o] = (a0 :: rest).take 1
        unfold bgp_path_forward
        simp only [List.foldl_cons, List.foldl_nil]
        rw [horig o ho]
        rfl
      · exact ⟨o, rfl, by rw [horig o ho]; simp⟩
      · intro x hx
        simp at hx
        exact ⟨a0, by rw [hx]; exact horig o ho, by simp⟩
    intro p hp
    have hfin := expand_range_inv t (a0 :: rest) tt hlen hzone hnbr_bgp
      hnbr_self hseq (by simp) _ hinit tt.length (Nat.le_refl _) p hp
    have hmin : min tt.length ((a0 :: rest).length - 1) =
        (a0 :: rest).length - 1 := by
      rw [hlen]
      omega
    rw [hmin] at hfin
    obtain ⟨_, hnd, hcol, _, _⟩ := hfin
    refine ⟨?_, hnd⟩
    rw [hcol]
    have : (a0 :: rest).length - 1 + 1 = (a0 :: rest).length := by
      simp
    rw [this, List.take_length]

/-- A two-router topology with an eBGP session between R1 (AS 100) and
R2 (AS 200). -/
def c2wTopo : Topo :=
  { nodes := [("R1", VERTEXTYPE.ROUTER), ("R2", VERTEXTYPE.ROUTER)]
    adj := [("R1", "R2"), ("R2", "R1")]
    asn := [("R1", 100), ("R2", 200)]
    nbrs := [("R1", ["R2"]), ("R2", ["R1"])]
    anns := [] }

/-- C2 witness: the amended statement applied to a concrete expansion of
(100, 200) from origin R1, which returns the single path (R1, R2). -/
theorem c2_witness :
    bgp_path_forward c2wTopo ["R1", "R2"] = [100, 200] ∧
    List.Nodup ["R1", "R2"] :=
  c2_expand_as_path_amended c2wTopo 100 [200] ["R1"] [["R1", "R2"]]
    (by decide) (by decide) (by decide) (by decide) (by rfl)
    ["R1", "R2"] (by decide)

/-- The per-node attributes of a propagation graph built by the external
compute_propagation primitive: allowed paths, blocked paths, and the ranked
order list. -/
structure NetAttrs where
  paths : List (List String)
  block : List (List String)
  order : List (List (List String))
deriving DecidableEq, Repr

/-- A per-prefix propagation graph: node attributes plus undirected edges. -/
structure PGraph where
  pnodes : List (String × NetAttrs)
  pedges : List (String × String)
deriving DecidableEq, Repr

/-- The merged multi-prefix propagation graph: each node carries a nets
dictionary from prefix to that prefix's attributes. -/
structure MGraph where
  mnodes : List (String × List (String × NetAttrs))
  medges : List (String × String)
deriving DecidableEq, Repr

/-- Replace the first entry of an association list holding the key, or
append the entry. -/
def assoc_update {κ β : Type} [BEq κ] : List (κ × β) → κ → β → List (κ × β)
  | [], k, v => [(k, v)]
  | (k2, v2) :: rest, k, v =>
      if k2 == k then (k, v) :: rest else (k2, v2) :: assoc_update rest k v

/-- One node step of merge_dags: create the node with a fresh nets
dictionary when absent, then store this prefix's attributes under the
prefix key. -/
def merge_node (net : String) (m : MGraph) (node : String) (attrs : NetAttrs) :
    MGraph :=
  match m.mnodes.lookup node with
  | none => { m with mnodes := m.mnodes ++ [(node, [(net, attrs)])] }
  | some nets => { m with mnodes := assoc_update m.mnodes node (nets ++ [(net, attrs)]) }

/-- networkx Graph.add_edge on the merged graph (both endpoints merged
already by the node loop): record the undirected edge once. -/
def add_medge (m : MGraph) (u v : String) : MGraph :=
  if (u, v) ∈ m.medges ∨ (v, u) ∈ m.medges then m
  else { m with medges := m.medges ++ [(u, v)] }

/-- The node loop of merge_dags for one per-prefix graph. -/
def merge_nodes (net : String) (m : MGraph) (l : List (String × NetAttrs)) :
    MGraph :=
  l.foldl (fun m q => merge_node net m q.1 q.2) m

/-- The edge loop of merge_dags for one per-prefix graph. -/
def merge_edges (m : MGraph) (l : List (String × String)) : MGraph :=
  l.foldl (fun m e => add_medge m e.1 e.2) m

/-- EBGPPropagation.merge_dags for one dictionary of per-prefix graphs
(the source runs the same loop once for the eBGP graphs and once for the
iBGP graphs). -/
def merge_dags (gs : List (String × PGraph)) : MGraph :=
  gs.foldl
    (fun m pr => merge_edges (merge_nodes pr.1 m pr.2.pnodes) pr.2.pedges)
    ⟨[], []⟩

/-- assoc_update stores the given value under the given key. -/
theorem assoc_update_lookup_self {κ β : Type} [BEq κ] [LawfulBEq κ] :
    ∀ (l : List (κ × β)) (k : κ) (v : β),
      (assoc_update l k v).lookup k = some v := by
  intro l
  induction l with
  | nil => intro k v; simp [assoc_update]
  | cons q qs ih =>
    intro k v
    obtain ⟨k2, v2⟩ := q
    by_cases hk : k2 = k
    · subst hk
      simp [assoc_update]
    · have hb : (k2 == k) = false := beq_eq_false_iff_ne.mpr hk
      unfold assoc_update
      rw [hb]
      simp only [Bool.false_eq_true, if_false]
      rw [lookup_cons_ne k2 k v2 _ (Ne.symm hk)]
      exact ih k v

/-- assoc_update leaves every other key unchanged. -/
theorem assoc_update_lookup_ne {κ β : Type} [BEq κ] [LawfulBEq κ] :
    ∀ (l : List (κ × β)) (k k2 : κ) (v : β), k2 ≠ k →
      (assoc_update l k v).lookup k2 = l.lookup k2 := by
  intro l
  induction l with
  | nil =>
    intro k k2 v hne
    show ([(k, v)].lookup k2) = ([] : List (κ × β)).lookup k2
    rw [lookup_cons_ne k k2 v [] hne]
  | cons q qs ih =>
    intro k k2 v hne
    obtain ⟨k3, v3⟩ := q
    by_cases hk : k3 = k
    · subst hk
      unfold assoc_update
      rw [if_pos (beq_self_eq_true _)]
      rw [lookup_cons_ne k3 k2 v qs hne, lookup_cons_ne k3 k2 v3 qs hne]
    · have hb : (k3 == k) = false := beq_eq_false_iff_ne.mpr hk
      unfold assoc_update
      rw [hb]
      simp only [Bool.false_eq_true, if_false]
      by_cases hk2 : k2 = k3
      · subst hk2
        rw [List.lookup_cons_self, List.lookup_cons_self]
      · rw [lookup_cons_ne k3 k2 v3 _ hk2, lookup_cons_ne k3 k2 v3 qs hk2]
        exact ih k k2 v hne

/-- Membership in an assoc_update result comes from the original list or is
the new entry. -/
theorem assoc_update_mem {κ β : Type} [BEq κ] [LawfulBEq κ] :
    ∀ (l : List (κ × β)) (k : κ) (v : β) (q : κ × β),
      q ∈ assoc_update l k v → q ∈ l ∨ q = (k, v) := by
  intro l
  induction l with
  | nil =>
    intro k v q hq
    simp [assoc_update] at hq
    exact Or.inr (by simp [hq])
  | cons q2 qs ih =>
    intro k v q hq
    obtain ⟨k3, v3⟩ := q2
    by_cases hk : k3 = k
    · subst hk
      unfold assoc_update at hq
      rw [if_pos (beq_self_eq_true _)] at hq
      rcases List.mem_cons.mp hq with hq | hq
      · exact Or.inr hq
      · exact Or.inl (List.mem_cons_of_mem _ hq)
    · have hb : (k3 == k) = false := beq_eq_false_iff_ne.mpr hk
      unfold assoc_update at hq
      rw [hb] at hq
      simp only [Bool.false_eq_true, if_false] at hq
      rcases List.mem_cons.mp hq with hq | hq
      · exact Or.inl (by simp [hq])
      · rcases ih k v q hq with h | h
        · exact Or.inl (List.mem_cons_of_mem _ h)
        · exact Or.inr h

/-- Keys after assoc_update. -/
theorem assoc_update_keys {κ β : Type} [BEq κ] [LawfulBEq κ] :
    ∀ (l : List (κ × β)) (k : κ) (v : β) (k2 : κ),
      k2 ∈ (assoc_update l k v).map Prod.fst ↔
        k2 ∈ l.map Prod.fst ∨ k2 = k := by
  intro l
  induction l with
  | nil => intro k v k2; simp [assoc_update]
  | cons q qs ih =>
    intro k v k2
    obtain ⟨k3, v3⟩ := q
    by_cases hk : k3 = k
    · subst hk
      unfold assoc_update
      rw [if_pos (beq_self_eq_true _)]
      simp
      tauto
    · have hb : (k3 == k) = false := beq_eq_false_iff_ne.mpr hk
      unfold assoc_update
      rw [hb]
      simp only [Bool.false_eq_true, if_false]
      simp only [List.map_cons, List.mem_cons]
      rw [ih k v k2]
      tauto

/-- merge_node does not touch the edge list. -/
theorem merge_node_medges (net : String) (m : MGraph) (node : String)
    (attrs : NetAttrs) : (merge_node net m node attrs).medges = m.medges := by
  unfold merge_node
  cases m.mnodes.lookup node <;> rfl

/-- merge_node on other nodes. -/
theorem merge_node_lookup_ne (net : String) (m : MGraph) (node : String)
    (attrs : NetAttrs) (n : String) (hn : n ≠ node) :
    (merge_node net m node attrs).mnodes.lookup n = m.mnodes.lookup n := by
  unfold merge_node
  cases hl : m.mnodes.lookup node with
  | none =>
    show (m.mnodes ++ [(node, [(net, attrs)])]).lookup n = m.mnodes.lookup n
    rw [List.lookup_append]
    rw [lookup_cons_ne node n ([(net, attrs)]) [] hn]
    rw [List.lookup_nil]
    exact Option.or_none
  | some nets => exact assoc_update_lookup_ne m.mnodes node n _ hn

/-- merge_node appends the new prefix entry to the nets of its node. -/
theorem merge_node_lookup_self (net : String) (m : MGraph) (node : String)
    (attrs : NetAttrs) :
    (merge_node net m node attrs).mnodes.lookup node =
      some ((m.mnodes.lookup node).getD [] ++ [(net, attrs)]) := by
  unfold merge_node
  cases hl : m.mnodes.lookup node with
  | none =>
    show (m.mnodes ++ [(node, [(net, attrs)])]).lookup node = _
    rw [List.lookup_append, hl]
    simp
  | some nets => exact assoc_update_lookup_self m.mnodes node _

/-- Keys after merge_node. -/
theorem merge_node_keys (net : String) (m : MGraph) (node : String)
    (attrs : NetAttrs) (n : String) :
    n ∈ (merge_node net m node attrs).mnodes.map Prod.fst ↔
      n ∈ m.mnodes.map Prod.fst ∨ n = node := by
  unfold merge_node
  cases hl : m.mnodes.lookup node with
  | none =>
    show n ∈ (m.mnodes ++ [(node, [(net, attrs)])]).map Prod.fst ↔ _
    simp
  | some nets => exact assoc_update_keys m.mnodes node _ n

/-- Every nets entry of a merge_node result either was present, or extends
a present entry by the new prefix key, or is the fresh singleton entry. -/
theorem merge_node_mem (net : String) (m : MGraph) (node : String)
    (attrs : NetAttrs) (q : String × List (String × NetAttrs))
    (hq : q ∈ (merge_node net m node attrs).mnodes) :
    q ∈ m.mnodes ∨
    (∃ nets0, (q.1, nets0) ∈ m.mnodes ∧ q.2 = nets0 ++ [(net, attrs)]) ∨
    q.2 = [(net, attrs)] := by
  unfold merge_node at hq
  cases hl : m.mnodes.lookup node with
  | none =>
    rw [hl] at hq
    simp only at hq
    rcases List.mem_append.mp hq with h | h
    · exact Or.inl h
    · simp at h
      exact Or.inr (Or.inr (by rw [h]))
  | some nets =>
    rw [hl] at hq
    simp only at hq
    rcases assoc_update_mem m.mnodes node _ q hq with h | h
    · exact Or.inl h
    · refine Or.inr (Or.inl ⟨nets, ?_, by rw [h]⟩)
      rw [h]
      exact lookup_mem m.mnodes node nets hl

/-- merge_nodes does not touch the edge list. -/
theorem merge_nodes_medges (net : String) :
    ∀ (l : List (String × NetAttrs)) (m : MGraph),
      (merge_nodes net m l).medges = m.medges := by
  intro l
  induction l with
  | nil => intro m; rfl
  | cons q rest ih =>
    intro m
    unfold merge_nodes
    simp only [List.foldl_cons]
    show (merge_nodes net (merge_node net m q.1 q.2) rest).medges = m.medges
    rw [ih (merge_node net m q.1 q.2)]
    exact merge_node_medges net m q.1 q.2

/-- add_medge does not touch the node list. -/
theorem add_medge_mnodes (m : MGraph) (u v : String) :
    (add_medge m u v).mnodes = m.mnodes := by
  unfold add_medge
  by_cases h : (u, v) ∈ m.medges ∨ (v, u) ∈ m.medges
  · rw [if_pos h]
  · rw [if_neg h]

/-- merge_edges does not touch the node list. -/
theorem merge_edges_mnodes :
    ∀ (l : List (String × String)) (m : MGraph),
      (merge_edges m l).mnodes = m.mnodes := by
  intro l
  induction l with
  | nil => intro m; rfl
  | cons e rest ih =>
    intro m
    unfold merge_edges
    simp only [List.foldl_cons]
    show (merge_edges (add_medge m e.1 e.2) rest).mnodes = m.mnodes
    rw [ih (add_medge m e.1 e.2)]
    exact add_medge_mnodes m e.1 e.2

/-- Undirected edge membership after add_medge. -/
theorem add_medge_mem (m : MGraph) (u v x y : String) :
    ((x, y) ∈ (add_medge m u v).medges ∨ (y, x) ∈ (add_medge m u v).medges) ↔
      (((x, y) ∈ m.medges ∨ (y, x) ∈ m.medges) ∨
        ((x, y) = (u, v) ∨ (y, x) = (u, v))) := by
  unfold add_medge
  by_cases h : (u, v) ∈ m.medges ∨ (v, u) ∈ m.medges
  · rw [if_pos h]
    constructor
    · exact fun h2 => Or.inl h2
    · rintro (h2 | h2)
      · exact h2
      · rcases h2 with h2 | h2
        · rw [Prod.mk.injEq] at h2
          obtain ⟨hx, hy⟩ := h2
          subst hx
          subst hy
          rcases h with h | h
          · exact Or.inl h
          · exact Or.inr h
        · rw [Prod.mk.injEq] at h2
          obtain ⟨hy, hx⟩ := h2
          subst hx
          subst hy
          rcases h with h | h
          · exact Or.inr h
          · exact Or.inl h
  · rw [if_neg h]
    simp only [List.mem_append, List.mem_singleton]
    tauto

/-- Undirected edge membership after merge_edges. -/
theorem merge_edges_mem :
    ∀ (l : List (String × String)) (m : MGraph) (x y : String),
      ((x, y) ∈ (merge_edges m l).medges ∨ (y, x) ∈ (merge_edges m l).medges) ↔
        (((x, y) ∈ m.medges ∨ (y, x) ∈ m.medges) ∨
          ((x, y) ∈ l ∨ (y, x) ∈ l)) := by
  intro l
  induction l with
  | nil => intro m x y; simp [merge_edges]
  | cons e rest ih =>
    intro m x y
    obtain ⟨u, v⟩ := e
    have hstep : merge_edges m ((u, v) :: rest) =
        merge_edges (add_medge m u v) rest := rfl
    rw [hstep, ih (add_medge m u v) x y, add_medge_mem m u v x y]
    simp only [List.mem_cons]
    tauto

/-- Node keys after merge_nodes. -/
theorem merge_nodes_keys (net : String) :
    ∀ (l : List (String × NetAttrs)) (m : MGraph) (n : String),
      n ∈ (merge_nodes net m l).mnodes.map Prod.fst ↔
        n ∈ m.mnodes.map Prod.fst ∨ n ∈ l.map Prod.fst := by
  intro l
  induction l with
  | nil => intro m n; simp [merge_nodes]
  | cons q rest ih =>
    intro m n
    unfold merge_nodes
    simp only [List.foldl_cons]
    show n ∈ (merge_nodes net (merge_node net m q.1 q.2) rest).mnodes.map Prod.fst ↔ _
    rw [ih (merge_node net m q.1 q.2) n, merge_node_keys]
    simp only [List.map_cons, List.mem_cons]
    tauto

/-- merge_nodes leaves nodes outside the graph untouched. -/
theorem merge_nodes_lookup_skip (net : String) :
    ∀ (l : List (String × NetAttrs)) (m : MGraph) (n : String),
      n ∉ l.map Prod.fst →
      (merge_nodes net m l).mnodes.lookup n = m.mnodes.lookup n := by
  intro l
  induction l with
  | nil => intro m n _; rfl
  | cons q rest ih =>
    intro m n hn
    simp only [List.map_cons, List.mem_cons] at hn
    push_neg at hn
    unfold merge_nodes
    simp only [List.foldl_cons]
    show (merge_nodes net (merge_node net m q.1 q.2) rest).mnodes.lookup n = _
    rw [ih (merge_node net m q.1 q.2) n hn.2]
    exact merge_node_lookup_ne net m q.1 q.2 n hn.1

/-- merge_nodes appends this prefix's attributes to the nets of each node
of the per-prefix graph. -/
theorem merge_nodes_lookup_hit (net : String) :
    ∀ (l : List (String × NetAttrs)) (m : MGraph) (n : String)
      (attrs : NetAttrs),
      (l.map Prod.fst).Nodup → (n, attrs) ∈ l →
      (merge_nodes net m l).mnodes.lookup n =
        some ((m.mnodes.lookup n).getD [] ++ [(net, attrs)]) := by
  intro l
  induction l with
  | nil => intro m n attrs _ h; simp at h
  | cons q rest ih =>
    intro m n attrs hnd hmem
    obtain ⟨n1, a1⟩ := q
    simp only [List.map_cons, List.nodup_cons] at hnd
    unfold merge_nodes
    simp only [List.foldl_cons]
    show (merge_nodes net (merge_node net m n1 a1) rest).mnodes.lookup n = _
    rcases List.mem_cons.mp hmem with h | h
    · have hn1 : n1 = n := by
        have := congrArg Prod.fst h
        exact this.symm
      have ha1 : a1 = attrs := by
        have := congrArg Prod.snd h
        exact this.symm
      subst hn1
      subst ha1
      have hskip : n1 ∉ rest.map Prod.fst := hnd.1
      rw [merge_nodes_lookup_skip net rest _ n1 hskip]
      exact merge_node_lookup_self net m n1 a1
    · have hn1 : n1 ≠ n := by
        intro he
        subst he
        exact hnd.1 (List.mem_map.mpr ⟨(n1, attrs), h, rfl⟩)
      have := ih (merge_node net m n1 a1) n attrs hnd.2 h
      rw [this]
      rw [merge_node_lookup_ne net m n1 a1 n (Ne.symm hn1)]

/-- A node whose nets hold a prefix entry keeps that entry through any
later merge_node. -/
theorem merge_node_preserve (net2 : String) (m : MGraph) (node2 : String)
    (attrs2 : NetAttrs) (n net : String) (attrs : NetAttrs)
    (h : ∃ nets, m.mnodes.lookup n = some nets ∧ nets.lookup net = some attrs) :
    ∃ nets, (merge_node net2 m node2 attrs2).mnodes.lookup n = some nets ∧
      nets.lookup net = some attrs := by
  obtain ⟨nets, hn, hnet⟩ := h
  by_cases he : n = node2
  · subst he
    rw [merge_node_lookup_self]
    refine ⟨_, rfl, ?_⟩
    rw [hn]
    show ((nets ++ [(net2, attrs2)]).lookup net) = some attrs
    rw [List.lookup_append, hnet]
    rfl
  · rw [merge_node_lookup_ne net2 m node2 attrs2 n he]
    exact ⟨nets, hn, hnet⟩

/-- The preservation of a stored prefix entry through merge_nodes. -/
theorem merge_nodes_preserve (net2 : String) :
    ∀ (l : List (String × NetAttrs)) (m : MGraph) (n net : String)
      (attrs : NetAttrs),
      (∃ nets, m.mnodes.lookup n = some nets ∧ nets.lookup net = some attrs) →
      ∃ nets, (merge_nodes net2 m l).mnodes.lookup n = some nets ∧
        nets.lookup net = some attrs := by
  intro l
  induction l with
  | nil => intro m n net attrs h; exact h
  | cons q rest ih =>
    intro m n net attrs h
    unfold merge_nodes
    simp only [List.foldl_cons]
    exact ih (merge_node net2 m q.1 q.2) n net attrs
      (merge_node_preserve net2 m q.1 q.2 n net attrs h)

/-- The preservation of a stored prefix entry through the whole merge
fold. -/
theorem merge_fold_preserve :
    ∀ (gs : List (String × PGraph)) (m0 : MGraph) (n net : String)
      (attrs : NetAttrs),
      (∃ nets, m0.mnodes.lookup n = some nets ∧ nets.lookup net = some attrs) →
      ∃ nets,
        (gs.foldl
            (fun m pr => merge_edges (merge_nodes pr.1 m pr.2.pnodes) pr.2.pedges)
            m0).mnodes.lookup n = some nets ∧
        nets.lookup net = some attrs := by
  intro gs
  induction gs with
  | nil => intro m0 n net attrs h; exact h
  | cons pr rest ih =>
    intro m0 n net attrs h
    simp only [List.foldl_cons]
    apply ih
    have h2 := merge_nodes_preserve pr.1 pr.2.pnodes m0 n net attrs h
    obtain ⟨nets, hn, hnet⟩ := h2
    refine ⟨nets, ?_, hnet⟩
    rw [merge_edges_mnodes pr.2.pedges]
    exact hn

/-- All prefix keys stored by merge_node come from the old graph or are the
new prefix. -/
theorem merge_node_nets_keys (net2 : String) (m : MGraph) (node2 : String)
    (attrs2 : NetAttrs) (done : List String)
    (hm : ∀ q ∈ m.mnodes, ∀ k ∈ q.2.map Prod.fst, k ∈ done)
    (hnet : net2 ∈ done) :
    ∀ q ∈ (merge_node net2 m node2 attrs2).mnodes, ∀ k ∈ q.2.map Prod.fst,
      k ∈ done := by
  intro q hq k hk
  rcases merge_node_mem net2 m node2 attrs2 q hq with h | h | h
  · exact hm q h k hk
  · obtain ⟨nets0, hmem0, hq2⟩ := h
    rw [hq2] at hk
    simp only [List.map_append, List.mem_append] at hk
    rcases hk with hk | hk
    · exact hm (q.1, nets0) hmem0 k hk
    · simp at hk
      rw [hk]
      exact hnet
  · rw [h] at hk
    simp at hk
    rw [hk]
    exact hnet

/-- All prefix keys stored by merge_nodes come from the old graph or are
the new prefix. -/
theorem merge_nodes_nets_keys (net2 : String) :
    ∀ (l : List (String × NetAttrs)) (m : MGraph) (done : List String),
      (∀ q ∈ m.mnodes, ∀ k ∈ q.2.map Prod.fst, k ∈ done) →
      net2 ∈ done →
      ∀ q ∈ (merge_nodes net2 m l).mnodes, ∀ k ∈ q.2.map Prod.fst,
        k ∈ done := by
  intro l
  induction l with
  | nil => intro m done hm _; exact hm
  | cons q0 rest ih =>
    intro m done hm hnet
    unfold merge_nodes
    simp only [List.foldl_cons]
    exact ih (merge_node net2 m q0.1 q0.2) done
      (merge_node_nets_keys net2 m q0.1 q0.2 done hm hnet) hnet

/-- Undirected edge membership through the merge fold. -/
theorem merge_fold_edges :
    ∀ (gs : List (String × PGraph)) (m0 : MGraph) (x y : String),
      ((x, y) ∈ (gs.foldl
            (fun m pr => merge_edges (merge_nodes pr.1 m pr.2.pnodes) pr.2.pedges)
            m0).medges ∨
       (y, x) ∈ (gs.foldl
            (fun m pr => merge_edges (merge_nodes pr.1 m pr.2.pnodes) pr.2.pedges)
            m0).medges) ↔
        (((x, y) ∈ m0.medges ∨ (y, x) ∈ m0.medges) ∨
          ∃ pr ∈ gs, (x, y) ∈ pr.2.pedges ∨ (y, x) ∈ pr.2.pedges) := by
  intro gs
  induction gs with
  | nil => intro m0 x y; simp
  | cons pr rest ih =>
    intro m0 x y
    simp only [List.foldl_cons]
    have base :
        ((x, y) ∈ (merge_edges (merge_nodes pr.1 m0 pr.2.pnodes) pr.2.pedges).medges ∨
         (y, x) ∈ (merge_edges (merge_nodes pr.1 m0 pr.2.pnodes) pr.2.pedges).medges) ↔
          (((x, y) ∈ m0.medges ∨ (y, x) ∈ m0.medges) ∨
            ((x, y) ∈ pr.2.pedges ∨ (y, x) ∈ pr.2.pedges)) := by
      rw [merge_edges_mem, merge_nodes_medges]
    constructor
    · intro h
      rcases (ih _ x y).mp h with h2 | h2
      · rcases base.mp h2 with h3 | h3
        · exact Or.inl h3
        · exact Or.inr ⟨pr, List.mem_cons_self _ _, h3⟩
      · obtain ⟨pr2, hpr2, h3⟩ := h2
        exact Or.inr ⟨pr2, List.mem_cons_of_mem _ hpr2, h3⟩
    · intro h
      rcases h with h | ⟨pr2, hpr2, h3⟩
      · exact (ih _ x y).mpr (Or.inl (base.mpr (Or.inl h)))
      · rcases List.mem_cons.mp hpr2 with he | he
        · subst he
          exact (ih _ x y).mpr (Or.inl (base.mpr (Or.inr h3)))
        · exact (ih _ x y).mpr (Or.inr ⟨pr2, he, h3⟩)

/-- Node keys through the merge fold. -/
theorem merge_fold_keys :
    ∀ (gs : List (String × PGraph)) (m0 : MGraph) (n : String),
      n ∈ (gs.foldl
          (fun m pr => merge_edges (merge_nodes pr.1 m pr.2.pnodes) pr.2.pedges)
          m0).mnodes.map Prod.fst ↔
        (n ∈ m0.mnodes.map Prod.fst ∨
          ∃ pr ∈ gs, n ∈ pr.2.pnodes.map Prod.fst) := by
  intro gs
  induction gs with
  | nil => intro m0 n; simp
  | cons pr rest ih =>
    intro m0 n
    simp only [List.foldl_cons]
    have base :
        n ∈ (merge_edges (merge_nodes pr.1 m0 pr.2.pnodes) pr.2.pedges).mnodes.map Prod.fst ↔
          (n ∈ m0.mnodes.map Prod.fst ∨ n ∈ pr.2.pnodes.map Prod.fst) := by
      rw [merge_edges_mnodes, merge_nodes_keys]
    constructor
    · intro h
      rcases (ih _ n).mp h with h2 | h2
      · rcases base.mp h2 with h3 | h3
        · exact Or.inl h3
        · exact Or.inr ⟨pr, List.mem_cons_self _ _, h3⟩
      · obtain ⟨pr2, hpr2, h3⟩ := h2
        exact Or.inr ⟨pr2, List.mem_cons_of_mem _ hpr2, h3⟩
    · intro h
      rcases h with h | ⟨pr2, hpr2, h3⟩
      · exact (ih _ n).mpr (Or.inl (base.mpr (Or.inl h)))
      · rcases List.mem_cons.mp hpr2 with he | he
        · subst he
          exact (ih _ n).mpr (Or.inl (base.mpr (Or.inr h3)))
        · exact (ih _ n).mpr (Or.inr ⟨pr2, he, h3⟩)

/-- Through the merge fold, each node of a per-prefix graph ends with that
graph's attributes stored under that prefix key. -/
theorem merge_fold_attr :
    ∀ (gs : List (String × PGraph)) (m0 : MGraph) (done : List String),
      (gs.map Prod.fst).Nodup →
      (∀ pr ∈ gs, pr.1 ∉ done) →
      (∀ q ∈ m0.mnodes, ∀ k ∈ q.2.map Prod.fst, k ∈ done) →
      ∀ net g, (net, g) ∈ gs → (g.pnodes.map Prod.fst).Nodup →
      ∀ n attrs, g.pnodes.lookup n = some attrs →
      ∃ nets,
        (gs.foldl
            (fun m pr => merge_edges (merge_nodes pr.1 m pr.2.pnodes) pr.2.pedges)
            m0).mnodes.lookup n = some nets ∧
        nets.lookup net = some attrs := by
  intro gs
  induction gs with
  | nil =>
    intro m0 done _ _ _ net g hg
    simp at hg
  | cons pr0 rest ih =>
    intro m0 done hkeys hdone hm0 net g hg hgnd n attrs hlook
    obtain ⟨net1, g1⟩ := pr0
    simp only [List.map_cons, List.nodup_cons] at hkeys
    simp only [List.foldl_cons]
    rcases List.mem_cons.mp hg with he | he
    · rw [Prod.mk.injEq] at he
      obtain ⟨he1, he2⟩ := he
      subst he1
      subst he2
      have hhit := merge_nodes_lookup_hit net g.pnodes m0 n attrs hgnd
        (lookup_mem _ _ _ hlook)
      have hnone : ((m0.mnodes.lookup n).getD []).lookup net = none := by
        cases hl : m0.mnodes.lookup n with
        | none => simp
        | some nets0 =>
          simp only [Option.getD_some]
          rw [List.lookup_eq_none_iff]
          intro p hp
          have hk : p.1 ∈ done :=
            hm0 (n, nets0) (lookup_mem _ _ _ hl) p.1
              (List.mem_map.mpr ⟨p, hp, rfl⟩)
          have hne : net ≠ p.1 := by
            intro he
            rw [he] at hdone
            exact hdone (p.1, g) (List.mem_cons_self _ _) hk
          exact bne_iff_ne.mpr hne
      have hq :
          ∃ nets,
            (merge_edges (merge_nodes net m0 g.pnodes) g.pedges).mnodes.lookup n =
              some nets ∧ nets.lookup net = some attrs := by
        refine ⟨(m0.mnodes.lookup n).getD [] ++ [(net, attrs)], ?_, ?_⟩
        · rw [merge_edges_mnodes]
          exact hhit
        · rw [List.lookup_append, hnone]
          simp
      exact merge_fold_preserve rest _ n net attrs hq
    · refine ih _ (done ++ [net1]) hkeys.2 ?_ ?_ net g he hgnd n attrs hlook
      · intro pr2 hpr2
        simp only [List.mem_append, List.mem_singleton]
        push_neg
        constructor
        · exact hdone pr2 (List.mem_cons_of_mem _ hpr2)
        · intro hne
          apply hkeys.1
          rw [← hne]
          exact List.mem_map.mpr ⟨pr2, hpr2, rfl⟩
      · intro q hq k hk
        rw [merge_edges_mnodes] at hq
        exact merge_nodes_nets_keys net1 g1.pnodes m0 (done ++ [net1])
          (fun q2 hq2 k2 hk2 =>
            List.mem_append_left _ (hm0 q2 hq2 k2 hk2))
          (List.mem_append_right _ (by simp)) q hq k hk

/-- C6: merge_dags is a pure union: the merged graph's undirected edge set
is exactly the union of the per-prefix graphs' edge sets, its node set is
the union of their node sets, and every node's entry for a prefix whose
graph contains the node is exactly that graph's attributes for the node. -/
theorem c6_merge_dags_pure_union (gs : List (String × PGraph))
    (hkeys : (gs.map Prod.fst).Nodup)
    (hnodes : ∀ pr ∈ gs, (pr.2.pnodes.map Prod.fst).Nodup) :
    (∀ x y,
      ((x, y) ∈ (merge_dags gs).medges ∨ (y, x) ∈ (merge_dags gs).medges) ↔
        ∃ pr ∈ gs, (x, y) ∈ pr.2.pedges ∨ (y, x) ∈ pr.2.pedges) ∧
    (∀ n, n ∈ (merge_dags gs).mnodes.map Prod.fst ↔
      ∃ pr ∈ gs, n ∈ pr.2.pnodes.map Prod.fst) ∧
    (∀ net g n attrs, (net, g) ∈ gs → g.pnodes.lookup n = some attrs →
      ∃ nets, (merge_dags gs).mnodes.lookup n = some nets ∧
        nets.lookup net = some attrs) := by
  refine ⟨?_, ?_, ?_⟩
  · intro x y
    have h := merge_fold_edges gs ⟨[], []⟩ x y
    unfold merge_dags
    rw [h]
    simp
  · intro n
    have h := merge_fold_keys gs ⟨[], []⟩ n
    unfold merge_dags
    rw [h]
    simp
  · intro net g n attrs hg hlook
    exact merge_fold_attr gs ⟨[], []⟩ [] hkeys (by simp) (by simp) net g hg
      (hnodes (net, g) hg) n attrs hlook

/-- C6 witness: merging two one-node per-prefix graphs. -/
def c6G1 : PGraph :=
  ⟨[("R1", ⟨[["R1"]], [], []⟩)], [("R1", "R2")]⟩

/-- The second per-prefix graph of the C6 witness. -/
def c6G2 : PGraph :=
  ⟨[("R1", ⟨[], [["R2", "R1"]], []⟩)], []⟩

/-- C6 witness: the pure-union property evaluated on two concrete
per-prefix graphs that share the node R1. -/
theorem c6_witness :
    ((("R1", "R2") ∈ (merge_dags [("P1", c6G1), ("P2", c6G2)]).medges ∨
      ("R2", "R1") ∈ (merge_dags [("P1", c6G1), ("P2", c6G2)]).medges) ↔
        ∃ pr ∈ [("P1", c6G1), ("P2", c6G2)],
          ("R1", "R2") ∈ pr.2.pedges ∨ ("R2", "R1") ∈ pr.2.pedges) ∧
    (∃ nets, (merge_dags [("P1", c6G1), ("P2", c6G2)]).mnodes.lookup "R1" =
        some nets ∧ nets.lookup "P2" = some ⟨[], [["R2", "R1"]], []⟩) := by
  have h := c6_merge_dags_pure_union [("P1", c6G1), ("P2", c6G2)]
    (by decide) (by decide)
  exact ⟨h.1 "R1" "R2",
    h.2.2 "P2" c6G2 "R1" ⟨[], [["R2", "R1"]], []⟩ (by decide) (by decide)⟩

/-- The canonical propagation fact.  Modelled from the spec: the
PropagatedInfo class lives in synet/utils/bgp_utils.py, which is not under
src/; its fields (external_peer, egress, ann_name, peer, as_path,
as_path_len, path) follow the data model of the spec.  The prev
back-reference is recorded separately in the per-node origins map, as a
one-step value rather than an object reference. -/
structure PropInfo where
  external_peer : Option String
  egress : Option String
  ann_name : String
  peer : Option String
  as_path : List (Option Nat)
  as_path_len : Nat
  path : List String
deriving DecidableEq, Repr

/-- get_bgp_asnum with the is_router assertion of get_bgp_attrs. -/
def get_bgp_asnum_checked (t : Topo) (n : String) : Except String (Option Nat) :=
  if t_is_router t n then .ok (t.asn.lookup n)
  else .error (String.append "Node is not a router " n)

/-- get_bgp_advertise with the is_router assertion of get_bgp_attrs. -/
def get_bgp_advertise_checked (t : Topo) (n : String) :
    Except String (List Ann) :=
  if t_is_router t n then .ok ((t.anns.lookup n).getD [])
  else .error (String.append "Node is not a router " n)

/-- The inner get_as_path of partial_eval_propagated_info: walk the path
from its second router onward, tracking peer (the most recent BGP predecessor),
external_peer/egress (the eBGP crossing), and the collapsed AS list, and
return the AS list reversed. -/
def get_as_path (t : Topo) (p : List String) :
    Option String × Option String × Option String × List (Option Nat) :=
  match p with
  | [] => (none, none, none, [])
  | p0 :: rest =>
      if rest.isEmpty then (none, none, none, [get_bgp_asnum t p0])
      else
        match rest.foldl
          (fun st node =>
            match st with
            | (ep, eg, pr, asp, prev) =>
                match get_bgp_asnum t node with
                | none => (ep, eg, pr, asp, node)
                | some _ =>
                    ((if (get_bgp_asnum t prev).isSome ∧
                          get_bgp_asnum t node ≠ get_bgp_asnum t prev
                      then some prev else ep),
                     (if (get_bgp_asnum t prev).isSome ∧
                          get_bgp_asnum t node ≠ get_bgp_asnum t prev
                      then some node else eg),
                     (if (get_bgp_asnum t prev).isSome then some prev else pr),
                     (if asp = [] ∨ asp.getLast? ≠ some (get_bgp_asnum t node)
                      then asp ++ [get_bgp_asnum t node] else asp),
                     node))
          (none, none, none, [get_bgp_asnum t p0], p0) with
        | (ep, eg, pr, asp, _) => (ep, eg, pr, asp.reverse)

/-- The derived (pre-splice) AS sequence of a path. -/
def derived_as_path (t : Topo) (p : List String) : List (Option Nat) :=
  (get_as_path t p).2.2.2

/-- The error message of the missing-advertisement assertion, which names
the prefix and the origin node. -/
def ann_err (net node : String) : String :=
  String.append (String.append (String.append
    "Could not find announcement " net) " at node ") node

/-- The fact built for a freshly evaluated path: the prefix it was built
under, the triple from get_as_path, and the derived AS sequence spliced
with the matching advertisement. -/
def mk_fact (t : Topo) (net : String) (path : List String) (ann : Ann) :
    PropInfo :=
  match get_as_path t path with
  | (ep, eg, pr, asp) =>
      ⟨ep, eg, net, pr, asp ++ ann.as_path.map some,
        (asp ++ ann.as_path.map some).length, path⟩

/-- The per-path step of partial_eval_propagated_info phase 1: skip paths
already in the fact cache; otherwise derive the fact, splice the first
matching advertisement of the origin router, and abort when none
matches. -/
def eval_path (t : Topo) (net : String)
    (cache : List (List String × PropInfo)) (path : List String) :
    Except String (List (List String × PropInfo)) :=
  if (cache.lookup path).isSome then .ok cache
  else if path.isEmpty then .error "assert path"
  else
    match get_bgp_advertise_checked t (path.headD "") with
    | .error e => .error e
    | .ok anns =>
        match anns.find? (fun a => a.net == net) with
        | none => .error (ann_err net (path.headD ""))
        | some ann => .ok (cache ++ [(path, mk_fact t net path ann)])

/-- The iteration set paths of phase 1: paths united with block. -/
def paths_union (attrs : NetAttrs) : List (List String) :=
  attrs.paths ++ attrs.block.filter (fun p => p ∉ attrs.paths)

/-- Phase-1 cache fold over the paths of one (node, prefix) entry. -/
def eval_paths_fold (t : Topo) (net : String) :
    List (List String) → List (List String × PropInfo) →
    Except String (List (List String × PropInfo))
  | [], c => .ok c
  | p :: rest, c =>
      match eval_path t net c p with
      | .error e => .error e
      | .ok c2 => eval_paths_fold t net rest c2

/-- Look up the facts of a list of paths in the cache (the cache[path]
accesses of the order and block loops; a missing path is a KeyError). -/
def infos_of (cache : List (List String × PropInfo)) :
    List (List String) → Except String (List PropInfo)
  | [] => .ok []
  | p :: rest =>
      match cache.lookup p with
      | none => .error "KeyError: cache"
      | some info =>
          match infos_of cache rest with
          | .error e => .error e
          | .ok l => .ok (info :: l)

/-- The order_info sets of one (node, prefix) entry. -/
def order_infos (cache : List (List String × PropInfo)) :
    List (List (List String)) → Except String (List (List PropInfo))
  | [] => .ok []
  | s :: rest =>
      match infos_of cache s with
      | .error e => .error e
      | .ok l =>
          match order_infos cache rest with
          | .error e => .error e
          | .ok l2 => .ok (l :: l2)

/-- The evaluated attributes of one (node, prefix) entry: the raw
attributes plus order_info, block_info, and paths_info (the facts of the
paths listed in order). -/
structure EvalAttrs where
  paths : List (List String)
  block : List (List String)
  order : List (List (List String))
  order_info : List (List PropInfo)
  block_info : List PropInfo
  paths_info : List PropInfo
deriving DecidableEq, Repr

/-- Phase 1 of partial_eval_propagated_info for one (node, prefix)
entry. -/
def eval_net_attrs (t : Topo) (cache : List (List String × PropInfo))
    (net : String) (attrs : NetAttrs) :
    Except String (List (List String × PropInfo) × EvalAttrs) :=
  match eval_paths_fold t net (paths_union attrs) cache with
  | .error e => .error e
  | .ok cache2 =>
      match order_infos cache2 attrs.order with
      | .error e => .error e
      | .ok oi =>
          match infos_of cache2 attrs.block with
          | .error e => .error e
          | .ok bi =>
              .ok (cache2,
                ⟨attrs.paths, attrs.block, attrs.order, oi, bi, oi.flatten⟩)

/-- Phase 1 over the nets dictionary of one node. -/
def eval_nets (t : Topo) :
    List (String × NetAttrs) → List (List String × PropInfo) →
    Except String (List (String × EvalAttrs) × List (List String × PropInfo))
  | [], cache => .ok ([], cache)
  | (net, attrs) :: rest, cache =>
      match eval_net_attrs t cache net attrs with
      | .error e => .error e
      | .ok (cache2, ea) =>
          match eval_nets t rest cache2 with
          | .error e => .error e
          | .ok (l, cache3) => .ok ((net, ea) :: l, cache3)

/-- Phase 1 over all nodes of the merged propagation graph. -/
def eval_graph (t : Topo) :
    List (String × List (String × NetAttrs)) → List (List String × PropInfo) →
    Except String
      (List (String × List (String × EvalAttrs)) ×
        List (List String × PropInfo))
  | [], cache => .ok ([], cache)
  | (node, nets) :: rest, cache =>
      match eval_nets t nets cache with
      | .error e => .error e
      | .ok (l, cache2) =>
          match eval_graph t rest cache2 with
          | .error e => .error e
          | .ok (l2, cache3) => .ok ((node, l) :: l2, cache3)

/-- find_prev_prop of partial_eval_propagated_info: among the peer
router's own facts for the same prefix, the first whose path equals this
path with its last router dropped; the AS-number reads keep the is_router
assertions of the source, and the merged-graph accesses are the KeyErrors
of the source. -/
def find_prev_prop (t : Topo)
    (evald : List (String × List (String × EvalAttrs)))
    (node net : String) (propagated : PropInfo) :
    Except String (Option PropInfo) :=
  match get_bgp_asnum_checked t node with
  | .error e => .error e
  | .ok _ =>
      if propagated.path.length < 2 then .ok none
      else
        match propagated.peer with
        | none => .error "Node is not a router None"
        | some nb =>
            match get_bgp_asnum_checked t nb with
            | .error e => .error e
            | .ok _ =>
                match evald.lookup nb with
                | none => .error (String.append "KeyError: " nb)
                | some nets =>
                    match nets.lookup net with
                    | none => .error (String.append "KeyError: " net)
                    | some nattrs =>
                        .ok ((nattrs.paths_info ++ nattrs.block_info).find?
                          (fun ni => propagated.path.dropLast == ni.path))

/-- Phase 2 for the facts of one (node, prefix) entry: facts whose path is
shorter than two routers are skipped, every other fact is chained to its
predecessor (or none). -/
def origins_fold (t : Topo)
    (evald : List (String × List (String × EvalAttrs)))
    (node net : String) :
    List PropInfo → Except String (List (PropInfo × Option PropInfo))
  | [] => .ok []
  | f :: rest =>
      if f.path.length < 2 then origins_fold t evald node net rest
      else
        match find_prev_prop t evald node net f with
        | .error e => .error e
        | .ok o =>
            match origins_fold t evald node net rest with
            | .error e => .error e
            | .ok l => .ok ((f, o) :: l)

/-- Phase 2 over the nets of one node. -/
def origins_nets (t : Topo)
    (evald : List (String × List (String × EvalAttrs))) (node : String) :
    List (String × EvalAttrs) →
    Except String (List (String × List (PropInfo × Option PropInfo)))
  | [] => .ok []
  | (net, ea) :: rest =>
      match origins_fold t evald node net (ea.paths_info ++ ea.block_info) with
      | .error e => .error e
      | .ok orgs =>
          match origins_nets t evald node rest with
          | .error e => .error e
          | .ok l => .ok ((net, orgs) :: l)

/-- Phase 2 over all nodes. -/
def origins_graph (t : Topo)
    (evald : List (String × List (String × EvalAttrs))) :
    List (String × List (String × EvalAttrs)) →
    Except String
      (List (String × List (String × List (PropInfo × Option PropInfo))))
  | [] => .ok []
  | (node, nets) :: rest =>
      match origins_nets t evald node nets with
      | .error e => .error e
      | .ok l =>
          match origins_graph t evald rest with
          | .error e => .error e
          | .ok l2 => .ok ((node, l) :: l2)

/-- EBGPPropagation.partial_eval_propagated_info: phase 1 builds the fact
cache and the per-(node, prefix) info sets, phase 2 chains each fact to its
predecessor; the returned value holds the evaluated structure, the origins
maps, and the set of all observed AS paths. -/
def peval_propagated_info (t : Topo) (m : MGraph) :
    Except String
      (List (String × List (String × EvalAttrs)) ×
        List (String × List (String × List (PropInfo × Option PropInfo))) ×
        List (List (Option Nat))) :=
  match eval_graph t m.mnodes [] with
  | .error e => .error e
  | .ok (evald, cache) =>
      match origins_graph t evald evald with
      | .error e => .error e
      | .ok orgs => .ok (evald, orgs, cache.map (fun q => q.2.as_path))

/-- A fact cache is well formed when every fact's as_path_len equals the
length of its as_path. -/
def cache_wf (cache : List (List String × PropInfo)) : Prop :=
  ∀ q ∈ cache, q.2.as_path_len = q.2.as_path.length

/-- Every mk_fact satisfies the as_path_len invariant. -/
theorem mk_fact_len (t : Topo) (net : String) (path : List String) (ann : Ann) :
    (mk_fact t net path ann).as_path_len = (mk_fact t net path ann).as_path.length := by
  unfold mk_fact
  rcases get_as_path t path with ⟨ep, eg, pr, asp⟩
  rfl

/-- eval_path preserves cache well-formedness. -/
theorem eval_path_wf (t : Topo) (net : String)
    (c c2 : List (List String × PropInfo)) (p : List String)
    (h : eval_path t net c p = .ok c2) (hc : cache_wf c) : cache_wf c2 := by
  unfold eval_path at h
  split at h
  · injection h with h
    rw [← h]
    exact hc
  · split at h
    · simp at h
    · split at h
      · simp at h
      · split at h
        · simp at h
        · rename_i ann _
          injection h with h
          rw [← h]
          intro q hq
          rcases List.mem_append.mp hq with hq | hq
          · exact hc q hq
          · simp at hq
            rw [hq]
            exact mk_fact_len t net p ann

/-- eval_paths_fold preserves cache well-formedness. -/
theorem eval_paths_fold_wf (t : Topo) (net : String) :
    ∀ (ps : List (List String)) (c c2 : List (List String × PropInfo)),
      eval_paths_fold t net ps c = .ok c2 → cache_wf c → cache_wf c2 := by
  intro ps
  induction ps with
  | nil =>
    intro c c2 h hc
    unfold eval_paths_fold at h
    injection h with h
    rw [← h]
    exact hc
  | cons p rest ih =>
    intro c c2 h hc
    unfold eval_paths_fold at h
    cases he : eval_path t net c p with
    | error e => rw [he] at h; exact absurd h (by simp)
    | ok c3 =>
        rw [he] at h
        exact ih c3 c2 h (eval_path_wf t net c c3 p he hc)

/-- Facts delivered by infos_of are cache entries. -/
theorem infos_of_src (cache : List (List String × PropInfo)) :
    ∀ (l : List (List String)) (li : List PropInfo),
      infos_of cache l = .ok li → ∀ f ∈ li, ∃ p, cache.lookup p = some f := by
  intro l
  induction l with
  | nil =>
    intro li h f hf
    unfold infos_of at h
    injection h with h
    rw [← h] at hf
    simp at hf
  | cons p rest ih =>
    intro li h f hf
    unfold infos_of at h
    cases hl : cache.lookup p with
    | none => rw [hl] at h; exact absurd h (by simp)
    | some info =>
        rw [hl] at h
        cases hr : infos_of cache rest with
        | error e => rw [hr] at h; exact absurd h (by simp)
        | ok l2 =>
            rw [hr] at h
            injection h with h
            rw [← h] at hf
            rcases List.mem_cons.mp hf with hf | hf
            · exact ⟨p, by rw [hf]; exact hl⟩
            · exact ih l2 hr f hf

/-- Facts delivered by order_infos are cache entries. -/
theorem order_infos_src (cache : List (List String × PropInfo)) :
    ∀ (l : List (List (List String))) (li : List (List PropInfo)),
      order_infos cache l = .ok li → ∀ s ∈ li, ∀ f ∈ s,
        ∃ p, cache.lookup p = some f := by
  intro l
  induction l with
  | nil =>
    intro li h s hs
    unfold order_infos at h
    injection h with h
    rw [← h] at hs
    simp at hs
  | cons s0 rest ih =>
    intro li h s hs f hf
    unfold order_infos at h
    cases h0 : infos_of cache s0 with
    | error e => rw [h0] at h; exact absurd h (by simp)
    | ok l0 =>
        rw [h0] at h
        cases hr : order_infos cache rest with
        | error e => rw [hr] at h; exact absurd h (by simp)
        | ok l2 =>
            rw [hr] at h
            injection h with h
            rw [← h] at hs
            rcases List.mem_cons.mp hs with hs | hs
            · rw [hs] at hf
              exact infos_of_src cache s0 l0 h0 f hf
            · exact ih l2 hr s hs f hf

/-- The as_path_len invariant of all facts of an EvalAttrs. -/
def ea_wf (ea : EvalAttrs) : Prop :=
  ∀ f ∈ ea.paths_info ++ ea.block_info ++ ea.order_info.flatten,
    f.as_path_len = f.as_path.length

/-- eval_net_attrs delivers a well-formed cache and well-formed facts. -/
theorem eval_net_attrs_wf (t : Topo) (cache : List (List String × PropInfo))
    (net : String) (attrs : NetAttrs) (cache2 : List (List String × PropInfo))
    (ea : EvalAttrs) (h : eval_net_attrs t cache net attrs = .ok (cache2, ea))
    (hc : cache_wf cache) : cache_wf cache2 ∧ ea_wf ea := by
  unfold eval_net_attrs at h
  split at h
  · simp at h
  · rename_i c2 hf
    split at h
    · simp at h
    · rename_i oi ho
      split at h
      · simp at h
      · rename_i bi hb
        injection h with h
        have hc2 : c2 = cache2 := congrArg Prod.fst h
        have hea : (⟨attrs.paths, attrs.block, attrs.order, oi, bi,
            oi.flatten⟩ : EvalAttrs) = ea := congrArg Prod.snd h
        subst hc2
        have hwf2 : cache_wf c2 :=
          eval_paths_fold_wf t net (paths_union attrs) cache c2 hf hc
        refine ⟨hwf2, ?_⟩
        rw [← hea]
        intro f hf2
        simp only [List.mem_append] at hf2
        rcases hf2 with (hf2 | hf2) | hf2
        · rw [List.mem_flatten] at hf2
          obtain ⟨s, hs, hfs⟩ := hf2
          obtain ⟨p, hp⟩ := order_infos_src c2 attrs.order oi ho s hs f hfs
          exact hwf2 (p, f) (lookup_mem _ _ _ hp)
        · obtain ⟨p, hp⟩ := infos_of_src c2 attrs.block bi hb f hf2
          exact hwf2 (p, f) (lookup_mem _ _ _ hp)
        · rw [List.mem_flatten] at hf2
          obtain ⟨s, hs, hfs⟩ := hf2
          obtain ⟨p, hp⟩ := order_infos_src c2 attrs.order oi ho s hs f hfs
          exact hwf2 (p, f) (lookup_mem _ _ _ hp)

/-- eval_nets delivers well-formed caches and facts. -/
theorem eval_nets_wf (t : Topo) :
    ∀ (nets : List (String × NetAttrs)) (cache : List (List String × PropInfo))
      (l : List (String × EvalAttrs)) (cache2 : List (List String × PropInfo)),
      eval_nets t nets cache = .ok (l, cache2) → cache_wf cache →
      cache_wf cache2 ∧ ∀ pr ∈ l, ea_wf pr.2 := by
  intro nets
  induction nets with
  | nil =>
    intro cache l cache2 h hc
    unfold eval_nets at h
    injection h with h
    have h1 : ([] : List (String × EvalAttrs)) = l := congrArg Prod.fst h
    have h2 : cache = cache2 := congrArg Prod.snd h
    subst h2
    rw [← h1]
    exact ⟨hc, by simp⟩
  | cons q rest ih =>
    intro cache l cache2 h hc
    obtain ⟨net, attrs⟩ := q
    unfold eval_nets at h
    split at h
    · simp at h
    · rename_i c2 ea he
      split at h
      · simp at h
      · rename_i l2 c3 hr
        injection h with h
        have h1 : (net, ea) :: l2 = l := congrArg Prod.fst h
        have h2 : c3 = cache2 := congrArg Prod.snd h
        subst h2
        obtain ⟨hcw, heaw⟩ := eval_net_attrs_wf t cache net attrs c2 ea he hc
        obtain ⟨hc3, hl2⟩ := ih c2 l2 c3 hr hcw
        refine ⟨hc3, ?_⟩
        rw [← h1]
        intro pr hpr
        rcases List.mem_cons.mp hpr with hpr | hpr
        · rw [hpr]
          exact heaw
        · exact hl2 pr hpr

/-- eval_graph delivers well-formed caches and facts. -/
theorem eval_graph_wf (t : Topo) :
    ∀ (nodes : List (String × List (String × NetAttrs)))
      (cache : List (List String × PropInfo))
      (l : List (String × List (String × EvalAttrs)))
      (cache2 : List (List String × PropInfo)),
      eval_graph t nodes cache = .ok (l, cache2) → cache_wf cache →
      cache_wf cache2 ∧ ∀ q ∈ l, ∀ pr ∈ q.2, ea_wf pr.2 := by
  intro nodes
  induction nodes with
  | nil =>
    intro cache l cache2 h hc
    unfold eval_graph at h
    injection h with h
    have h1 : ([] : List (String × List (String × EvalAttrs))) = l :=
      congrArg Prod.fst h
    have h2 : cache = cache2 := congrArg Prod.snd h
    subst h2
    rw [← h1]
    exact ⟨hc, by simp⟩
  | cons q rest ih =>
    intro cache l cache2 h hc
    obtain ⟨node, nets⟩ := q
    unfold eval_graph at h
    split at h
    · simp at h
    · rename_i lE c2 he
      split at h
      · simp at h
      · rename_i l2 c3 hr
        injection h with h
        have h1 : (node, lE) :: l2 = l := congrArg Prod.fst h
        have h2 : c3 = cache2 := congrArg Prod.snd h
        subst h2
        obtain ⟨hcw, hlE⟩ := eval_nets_wf t nets cache lE c2 he hc
        obtain ⟨hc3, hl2⟩ := ih c2 l2 c3 hr hcw
        refine ⟨hc3, ?_⟩
        rw [← h1]
        intro q2 hq2
        rcases List.mem_cons.mp hq2 with hq2 | hq2
        · rw [hq2]
          exact hlE
        · exact hl2 q2 hq2

/-- The characterization of a successful find_prev_prop on a fact with at
least two routers: the peer is set, the peer's evaluated nets hold the
prefix, and the result is the first fact there whose path is this path
without its last router. -/
theorem find_prev_prop_char (t : Topo)
    (evald : List (String × List (String × EvalAttrs)))
    (node net : String) (f : PropInfo) (o : Option PropInfo)
    (h : find_prev_prop t evald node net f = .ok o)
    (hlen : 2 ≤ f.path.length) :
    ∃ nb nets ea2, f.peer = some nb ∧ evald.lookup nb = some nets ∧
      nets.lookup net = some ea2 ∧
      o = (ea2.paths_info ++ ea2.block_info).find?
        (fun ni => f.path.dropLast == ni.path) := by
  unfold find_prev_prop at h
  split at h
  · simp at h
  · split at h
    · rename_i hlt
      omega
    · split at h
      · simp at h
      · rename_i nb hnb
        split at h
        · simp at h
        · split at h
          · simp at h
          · rename_i nets hnets
            split at h
            · simp at h
            · rename_i ea2 hea
              injection h with h
              exact ⟨nb, nets, ea2, hnb, hnets, hea, h.symm⟩

/-- Every origins entry carries a fact of length at least two together with
its find_prev_prop result. -/
theorem origins_fold_src (t : Topo)
    (evald : List (String × List (String × EvalAttrs)))
    (node net : String) :
    ∀ (l : List PropInfo) (orgs : List (PropInfo × Option PropInfo)),
      origins_fold t evald node net l = .ok orgs →
      ∀ q ∈ orgs, 2 ≤ q.1.path.length ∧
        find_prev_prop t evald node net q.1 = .ok q.2 := by
  intro l
  induction l with
  | nil =>
    intro orgs h q hq
    unfold origins_fold at h
    injection h with h
    rw [← h] at hq
    simp at hq
  | cons f rest ih =>
    intro orgs h q hq
    unfold origins_fold at h
    split at h
    · exact ih orgs h q hq
    · rename_i hge
      split at h
      · simp at h
      · rename_i o ho
        split at h
        · simp at h
        · rename_i l2 hl2
          injection h with h
          rw [← h] at hq
          rcases List.mem_cons.mp hq with hq | hq
          · rw [hq]
            refine ⟨?_, ?_⟩
            · show 2 ≤ f.path.length
              omega
            · show find_prev_prop t evald node net f = .ok o
              exact ho
          · exact ih l2 hl2 q hq

/-- Lifting origins_fold_src through the nets of one node. -/
theorem origins_nets_src (t : Topo)
    (evald : List (String × List (String × EvalAttrs))) (node : String) :
    ∀ (nets : List (String × EvalAttrs))
      (orgsl : List (String × List (PropInfo × Option PropInfo))),
      origins_nets t evald node nets = .ok orgsl →
      ∀ pr ∈ orgsl, ∀ q ∈ pr.2, 2 ≤ q.1.path.length ∧
        find_prev_prop t evald node pr.1 q.1 = .ok q.2 := by
  intro nets
  induction nets with
  | nil =>
    intro orgsl h pr hpr
    unfold origins_nets at h
    injection h with h
    rw [← h] at hpr
    simp at hpr
  | cons q0 rest ih =>
    intro orgsl h pr hpr q hq
    obtain ⟨net, ea⟩ := q0
    unfold origins_nets at h
    split at h
    · simp at h
    · rename_i orgs horgs
      split at h
      · simp at h
      · rename_i l2 hl2
        injection h with h
        rw [← h] at hpr
        rcases List.mem_cons.mp hpr with hpr | hpr
        · rw [hpr] at hq
          rw [hpr]
          exact origins_fold_src t evald node net _ orgs horgs q hq
        · exact ih l2 hl2 pr hpr q hq

/-- Lifting origins_fold_src through all nodes. -/
theorem origins_graph_src (t : Topo)
    (evald : List (String × List (String × EvalAttrs))) :
    ∀ (nodesl : List (String × List (String × EvalAttrs)))
      (orgsG : List (String × List (String × List (PropInfo × Option PropInfo)))),
      origins_graph t evald nodesl = .ok orgsG →
      ∀ nq ∈ orgsG, ∀ pr ∈ nq.2, ∀ q ∈ pr.2, 2 ≤ q.1.path.length ∧
        find_prev_prop t evald nq.1 pr.1 q.1 = .ok q.2 := by
  intro nodesl
  induction nodesl with
  | nil =>
    intro orgsG h nq hnq
    unfold origins_graph at h
    injection h with h
    rw [← h] at hnq
    simp at hnq
  | cons q0 rest ih =>
    intro orgsG h nq hnq pr hpr q hq
    obtain ⟨node, nets⟩ := q0
    unfold origins_graph at h
    split at h
    · simp at h
    · rename_i l horgs
      split at h
      · simp at h
      · rename_i l2 hl2
        injection h with h
        rw [← h] at hnq
        rcases List.mem_cons.mp hnq with hnq | hnq
        · rw [hnq] at hpr
          rw [hnq]
          exact origins_nets_src t evald node nets l horgs pr hpr q hq
        · exact ih l2 hl2 nq hnq pr hpr q hq

/-- C3 amended: every fact built by partial_eval_propagated_info satisfies
as_path_len = length(as_path); and every chained fact of at least two
routers has its peer present in the evaluated graph with an entry for the
prefix, its prev (when set) is a fact of that peer for the same prefix
whose path equals this fact's path without its last router, and prev is
left unset exactly when the peer's entry holds no such fact.  (As stated
the claim fails when the peer router has no entry at all for the prefix:
the source then raises a KeyError instead of leaving prev unset, see the
counterexample.) -/
theorem c3_peval_facts_amended (t : Topo) (m : MGraph)
    (evald : List (String × List (String × EvalAttrs)))
    (orgs : List (String × List (String × List (PropInfo × Option PropInfo))))
    (asps : List (List (Option Nat)))
    (h : peval_propagated_info t m = .ok (evald, orgs, asps)) :
    (∀ q ∈ evald, ∀ pr ∈ q.2,
      ∀ f ∈ pr.2.paths_info ++ pr.2.block_info ++ pr.2.order_info.flatten,
        f.as_path_len = f.as_path.length) ∧
    (∀ nq ∈ orgs, ∀ pr ∈ nq.2, ∀ fo ∈ pr.2,
      2 ≤ fo.1.path.length ∧
      ∃ nb nets ea2, fo.1.peer = some nb ∧ evald.lookup nb = some nets ∧
        nets.lookup pr.1 = some ea2 ∧
        (∀ prev, fo.2 = some prev → prev.path = fo.1.path.dropLast ∧
          prev ∈ ea2.paths_info ++ ea2.block_info) ∧
        (fo.2 = none → ∀ ni ∈ ea2.paths_info ++ ea2.block_info,
          fo.1.path.dropLast ≠ ni.path)) := by
  unfold peval_propagated_info at h
  split at h
  · simp at h
  · rename_i evald2 cache hev
    split at h
    · simp at h
    · rename_i orgs2 horg
      injection h with h
      rw [Prod.mk.injEq] at h
      obtain ⟨h1, h2⟩ := h
      rw [Prod.mk.injEq] at h2
      obtain ⟨h2, h3⟩ := h2
      subst h1
      subst h2
      constructor
      · have hwf := eval_graph_wf t m.mnodes [] evald2 cache hev
          (by intro q hq; simp at hq)
        intro q hq pr hpr f hf
        exact hwf.2 q hq pr hpr f hf
      · intro nq hnq pr hpr fo hfo
        obtain ⟨hlen, hfp⟩ :=
          origins_graph_src t evald2 evald2 orgs2 horg nq hnq pr hpr fo hfo
        obtain ⟨nb, nets, ea2, hpeer, hnb, hea, ho⟩ :=
          find_prev_prop_char t evald2 nq.1 pr.1 fo.1 fo.2 hfp hlen
        refine ⟨hlen, nb, nets, ea2, hpeer, hnb, hea, ?_, ?_⟩
        · intro prev hprev
          rw [hprev] at ho
          have hfind := ho.symm
          have hpred := List.find?_some hfind
          have hmem := List.mem_of_find?_eq_some hfind
          refine ⟨?_, hmem⟩
          have := eq_of_beq hpred
          exact this.symm
        · intro hnone
          rw [hnone] at ho
          intro ni hni heq
          have := List.find?_eq_none.mp ho.symm ni hni
          apply this
          rw [heq]
          exact beq_self_eq_true _

/-- A topology with routers A (AS 100, advertising prefix P) and B
(AS 200). -/
def c3wT : Topo :=
  { nodes := [("A", VERTEXTYPE.ROUTER), ("B", VERTEXTYPE.ROUTER)]
    adj := []
    asn := [("A", 100), ("B", 200)]
    nbrs := []
    anns := [("A", [⟨"P", []⟩])] }

/-- The merged graph of the C3 witness: A originates P, B receives it over
the path (A, B). -/
def c3wM : MGraph :=
  ⟨[("A", [("P", ⟨[["A"]], [], [[["A"]]]⟩)]),
    ("B", [("P", ⟨[["A", "B"]], [], [[["A", "B"]]]⟩)])], []⟩

/-- The fact of the origin path (A,). -/
def c3fA : PropInfo := ⟨none, none, "P", none, [some 100], 1, ["A"]⟩

/-- The fact of the path (A, B). -/
def c3fB : PropInfo :=
  ⟨some "A", some "B", "P", some "A", [some 200, some 100], 2, ["A", "B"]⟩

/-- The evaluated attributes at A. -/
def c3eaA : EvalAttrs := ⟨[["A"]], [], [[["A"]]], [[c3fA]], [], [c3fA]⟩

/-- The evaluated attributes at B. -/
def c3eaB : EvalAttrs :=
  ⟨[["A", "B"]], [], [[["A", "B"]]], [[c3fB]], [], [c3fB]⟩

/-- The evaluated graph of the C3 witness. -/
def c3wEvald : List (String × List (String × EvalAttrs)) :=
  [("A", [("P", c3eaA)]), ("B", [("P", c3eaB)])]

/-- The origins maps of the C3 witness. -/
def c3wOrgs : List (String × List (String × List (PropInfo × Option PropInfo))) :=
  [("A", [("P", [])]), ("B", [("P", [(c3fB, some c3fA)])])]

/-- The observed AS paths of the C3 witness. -/
def c3wAsps : List (List (Option Nat)) := [[some 100], [some 200, some 100]]

/-- C3 witness: the amended statement applied to a concrete evaluation in
which B's fact is chained to A's fact. -/
theorem c3_witness :
    c3fB.as_path_len = c3fB.as_path.length ∧ 2 ≤ c3fB.path.length := by
  have h := c3_peval_facts_amended c3wT c3wM c3wEvald c3wOrgs c3wAsps (by rfl)
  refine ⟨?_, ?_⟩
  · exact h.1 ("B", [("P", c3eaB)]) (by simp [c3wEvald]) ("P", c3eaB)
      (by simp) c3fB (by simp [c3eaB])
  · exact (h.2 ("B", [("P", [(c3fB, some c3fA)])]) (by simp [c3wOrgs])
      ("P", [(c3fB, some c3fA)]) (by simp) (c3fB, some c3fA) (by simp)).1

/-- The merged graph of the C3 counterexample: B's entry for P holds the
path (A, B) but the peer A is absent from the merged graph, so no fact of
the peer exists at all. -/
def c3cM : MGraph :=
  ⟨[("B", [("P", ⟨[["A", "B"]], [], [[["A", "B"]]]⟩)])], []⟩

/-- C3 counterexample: when the peer router has no entry in the merged
graph, partial_eval_propagated_info raises a KeyError instead of leaving
prev unset, although no matching fact of the peer exists; the claim as
stated promises the unset outcome whenever no such fact exists. -/
theorem c3_counterexample :
    peval_propagated_info c3wT c3cM = .error "KeyError: A" ∧
    ¬ ("A" ∈ c3cM.mnodes.map Prod.fst) := by
  constructor
  · rfl
  · decide

/-- C4 amended: for a path not yet in the fact cache whose origin router is
a router of the sketch, the per-path evaluation step aborts with the error
naming the prefix and the origin node when the origin has no advertisement
for the prefix; when a matching advertisement exists, the step succeeds and
splices the advertisement's as_path onto the derived AS sequence.  (As
stated the claim fails for paths already processed under an earlier prefix:
the cache makes the step return unchanged without any advertisement check,
see the counterexample.) -/
theorem c4_eval_path_amended (t : Topo) (net : String)
    (cache : List (List String × PropInfo)) (path : List String)
    (hne : path.isEmpty = false)
    (hcache : cache.lookup path = none)
    (hrout : t_is_router t (path.headD "") = true) :
    ((get_bgp_advertise t (path.headD "")).find? (fun a => a.net == net) =
        none →
      eval_path t net cache path = .error (ann_err net (path.headD ""))) ∧
    (∀ ann,
      (get_bgp_advertise t (path.headD "")).find? (fun a => a.net == net) =
        some ann →
      eval_path t net cache path =
        .ok (cache ++ [(path, mk_fact t net path ann)]) ∧
      (mk_fact t net path ann).as_path =
        derived_as_path t path ++ ann.as_path.map some) := by
  have hchk : get_bgp_advertise_checked t (path.headD "") =
      .ok (get_bgp_advertise t (path.headD "")) := by
    unfold get_bgp_advertise_checked get_bgp_advertise
    rw [if_pos hrout]
  constructor
  · intro hfind
    unfold eval_path
    rw [hcache]
    simp only [Option.isSome_none, Bool.false_eq_true, if_false]
    rw [if_neg (by simp [hne])]
    split
    · rename_i e he
      rw [hchk] at he
      simp at he
    · rename_i anns hanns
      rw [hchk] at hanns
      injection hanns with hanns
      split
      · rfl
      · rename_i ann2 hann2
        rw [hanns] at hfind
        rw [hfind] at hann2
        simp at hann2
  · intro ann hfind
    constructor
    · unfold eval_path
      rw [hcache]
      simp only [Option.isSome_none, Bool.false_eq_true, if_false]
      rw [if_neg (by simp [hne])]
      split
      · rename_i e he
        rw [hchk] at he
        simp at he
      · rename_i anns hanns
        rw [hchk] at hanns
        injection hanns with hanns
        split
        · rename_i hnone
          rw [hanns] at hfind
          rw [hfind] at hnone
          simp at hnone
        · rename_i ann2 hann2
          rw [hanns] at hfind
          rw [hfind] at hann2
          injection hann2 with hann2
          rw [hann2]
    · unfold mk_fact derived_as_path
      rcases hg : get_as_path t path with ⟨ep, eg, pr, asp⟩
      simp [hg]

/-- A topology holding router A (AS 100) advertising prefix P with an
extra AS path (300,). -/
def c4wT : Topo :=
  { nodes := [("A", VERTEXTYPE.ROUTER)]
    adj := []
    asn := [("A", 100)]
    nbrs := []
    anns := [("A", [⟨"P", [300]⟩])] }

/-- C4 witness: the amended statement applied to the fresh path (A,) under
prefix P, whose advertisement carries the extra AS path (300,). -/
theorem c4_witness :
    eval_path c4wT "P" [] ["A"] =
      .ok [(["A"], mk_fact c4wT "P" ["A"] ⟨"P", [300]⟩)] ∧
    (mk_fact c4wT "P" ["A"] ⟨"P", [300]⟩).as_path =
      derived_as_path c4wT ["A"] ++ [some 300] := by
  have h := (c4_eval_path_amended c4wT "P" [] ["A"] rfl rfl rfl).2
    ⟨"P", [300]⟩ (by rfl)
  exact ⟨h.1, by rw [h.2]; rfl⟩

/-- A topology holding router A (AS 100) advertising only prefix P1. -/
def c4cT : Topo :=
  { nodes := [("A", VERTEXTYPE.ROUTER)]
    adj := []
    asn := [("A", 100)]
    nbrs := []
    anns := [("A", [⟨"P1", []⟩])] }

/-- The shared per-prefix attributes of the C4 counterexample. -/
def c4cAttrs : NetAttrs := ⟨[["A"]], [], []⟩

/-- The merged graph of the C4 counterexample: node X carries the same path
(A,) under prefix P1 and under prefix P2. -/
def c4cM : MGraph := ⟨[("X", [("P1", c4cAttrs), ("P2", c4cAttrs)])], []⟩

/-- C4 counterexample: the path (A,) occurs in the paths set of node X
under prefix P2 and its origin A has no advertisement for P2, yet the run
completes without aborting, because the path was already cached while
processing prefix P1; the claim as stated demands an abort naming X and
P2. -/
theorem c4_counterexample :
    (peval_propagated_info c4cT c4cM).isOk = true ∧
    (get_bgp_advertise c4cT "A").find? (fun a => a.net == "P2") = none ∧
    ["A"] ∈ paths_union c4cAttrs := by
  refine ⟨rfl, rfl, by decide⟩

/-- A cached fact survives an eval_path step. -/
theorem eval_path_stable (t : Topo) (net : String)
    (c c2 : List (List String × PropInfo)) (q p : List String) (f : PropInfo)
    (h : eval_path t net c q = .ok c2) (hp : c.lookup p = some f) :
    c2.lookup p = some f := by
  unfold eval_path at h
  split at h
  · injection h with h
    rw [← h]
    exact hp
  · split at h
    · simp at h
    · split at h
      · simp at h
      · split at h
        · simp at h
        · injection h with h
          rw [← h]
          rw [List.lookup_append, hp]
          rfl

/-- A path absent from the cache stays absent through an eval_path step on
a different path. -/
theorem eval_path_fresh (t : Topo) (net : String)
    (c c2 : List (List String × PropInfo)) (q p : List String)
    (h : eval_path t net c q = .ok c2) (hqp : q ≠ p)
    (hp : c.lookup p = none) : c2.lookup p = none := by
  unfold eval_path at h
  split at h
  · injection h with h
    rw [← h]
    exact hp
  · split at h
    · simp at h
    · split at h
      · simp at h
      · split at h
        · simp at h
        · rename_i ann _
          injection h with h
          rw [← h]
          rw [List.lookup_append, hp]
          show [(q, mk_fact t net q ann)].lookup p = none
          rw [lookup_cons_ne q p _ [] (Ne.symm hqp)]
          rfl

/-- A freshly evaluated uncached path enters the cache with the fact built
from the current prefix and its first matching advertisement. -/
theorem eval_path_new (t : Topo) (net : String)
    (c c2 : List (List String × PropInfo)) (p : List String)
    (h : eval_path t net c p = .ok c2) (hp : c.lookup p = none) :
    ∃ ann, t_is_router t (p.headD "") = true ∧
      (get_bgp_advertise t (p.headD "")).find? (fun a => a.net == net) =
        some ann ∧
      c2.lookup p = some (mk_fact t net p ann) := by
  unfold eval_path at h
  split at h
  · rename_i hhit
    rw [hp] at hhit
    simp at hhit
  · split at h
    · simp at h
    · split at h
      · simp at h
      · rename_i anns hanns
        split at h
        · simp at h
        · rename_i ann hann
          have hrout : t_is_router t (p.headD "") = true := by
            by_contra hr
            unfold get_bgp_advertise_checked at hanns
            rw [if_neg hr] at hanns
            simp at hanns
          have hadv : anns = get_bgp_advertise t (p.headD "") := by
            unfold get_bgp_advertise_checked at hanns
            rw [if_pos hrout] at hanns
            injection hanns with hanns
            unfold get_bgp_advertise
            rw [← hanns]
          refine ⟨ann, hrout, by rw [← hadv]; exact hann, ?_⟩
          injection h with h
          rw [← h]
          rw [List.lookup_append, hp]
          exact List.lookup_cons_self

/-- Stability of cached facts through the phase-1 path fold. -/
theorem eval_paths_fold_stable (t : Topo) (net : String) :
    ∀ (ps : List (List String)) (c c2 : List (List String × PropInfo))
      (p : List String) (f : PropInfo),
      eval_paths_fold t net ps c = .ok c2 → c.lookup p = some f →
      c2.lookup p = some f := by
  intro ps
  induction ps with
  | nil =>
    intro c c2 p f h hp
    unfold eval_paths_fold at h
    injection h with h
    rw [← h]
    exact hp
  | cons q rest ih =>
    intro c c2 p f h hp
    unfold eval_paths_fold at h
    split at h
    · simp at h
    · rename_i c3 he
      exact ih c3 c2 p f h (eval_path_stable t net c c3 q p f he hp)

/-- An uncached path whose first occurrence in the fold list is q gets its
fact from the prefix of the fold. -/
theorem eval_paths_fold_new (t : Topo) (net : String) :
    ∀ (ps : List (List String)) (c c2 : List (List String × PropInfo))
      (p : List String),
      eval_paths_fold t net ps c = .ok c2 → c.lookup p = none → p ∈ ps →
      ∃ ann, t_is_router t (p.headD "") = true ∧
        (get_bgp_advertise t (p.headD "")).find? (fun a => a.net == net) =
          some ann ∧
        c2.lookup p = some (mk_fact t net p ann) := by
  intro ps
  induction ps with
  | nil =>
    intro c c2 p h hp hmem
    simp at hmem
  | cons q rest ih =>
    intro c c2 p h hp hmem
    unfold eval_paths_fold at h
    split at h
    · simp at h
    · rename_i c3 he
      by_cases hqp : q = p
      · subst hqp
        obtain ⟨ann, hrout, hfind, hc3⟩ := eval_path_new t net c c3 q he hp
        exact ⟨ann, hrout, hfind,
          eval_paths_fold_stable t net rest c3 c2 q _ h hc3⟩
      · rcases List.mem_cons.mp hmem with hm | hm
        · exact absurd hm.symm hqp
        · exact ih c3 c2 p h (eval_path_fresh t net c c3 q p he hqp hp) hm

/-- Facts delivered by infos_of for a listed path equal its cache entry. -/
theorem infos_of_hit (cache : List (List String × PropInfo)) :
    ∀ (l : List (List String)) (li : List PropInfo) (p : List String)
      (f : PropInfo),
      infos_of cache l = .ok li → p ∈ l → cache.lookup p = some f →
      f ∈ li := by
  intro l
  induction l with
  | nil =>
    intro li p f _ hmem
    simp at hmem
  | cons q rest ih =>
    intro li p f h hmem hc
    unfold infos_of at h
    split at h
    · simp at h
    · rename_i info hinfo
      split at h
      · simp at h
      · rename_i l2 hl2
        injection h with h
        rw [← h]
        rcases List.mem_cons.mp hmem with hm | hm
        · subst hm
          rw [hc] at hinfo
          injection hinfo with hinfo
          rw [← hinfo]
          exact List.mem_cons_self _ _
        · exact List.mem_cons_of_mem _ (ih l2 p f hl2 hm hc)

/-- C9: partial_eval_propagated_info caches facts keyed by the router path
alone: when the same path occurs under a first-processed prefix net1 and
again under a later prefix net2 of the first node, the fact attached under
net2 is the one built for net1 — it carries net1 as its ann_name and the AS
path spliced from net1's matching advertisement, not values derived for
net2. -/
theorem c9_cache_keyed_by_path_alone (t : Topo) (n1 net1 net2 : String)
    (attrs1 attrs2 : NetAttrs) (restNets : List (String × NetAttrs))
    (restNodes : List (String × List (String × NetAttrs)))
    (medges : List (String × String)) (p : List String) (ann1 : Ann)
    (E : List (String × List (String × EvalAttrs)))
    (O : List (String × List (String × List (PropInfo × Option PropInfo))))
    (A : List (List (Option Nat)))
    (hres : peval_propagated_info t
      ⟨(n1, (net1, attrs1) :: (net2, attrs2) :: restNets) :: restNodes,
        medges⟩ = .ok (E, O, A))
    (hp1 : p ∈ paths_union attrs1)
    (hp2 : p ∈ attrs2.block)
    (hnn : net2 ≠ net1)
    (hann : (get_bgp_advertise t (p.headD "")).find? (fun a => a.net == net1) =
      some ann1) :
    ∃ netsE ea2, E.lookup n1 = some netsE ∧ netsE.lookup net2 = some ea2 ∧
      mk_fact t net1 p ann1 ∈ ea2.block_info ∧
      (mk_fact t net1 p ann1).ann_name = net1 ∧
      (mk_fact t net1 p ann1).ann_name ≠ net2 ∧
      (mk_fact t net1 p ann1).as_path =
        derived_as_path t p ++ ann1.as_path.map some := by
  unfold peval_propagated_info at hres
  split at hres
  · simp at hres
  · rename_i evald2 cache hev
    split at hres
    · simp at hres
    · rename_i orgs2 horg
      injection hres with hres
      rw [Prod.mk.injEq] at hres
      obtain ⟨h1, hres2⟩ := hres
      unfold eval_graph at hev
      split at hev
      · simp at hev
      · rename_i lE c2 hnets
        split at hev
        · simp at hev
        · rename_i l2 c3 hrest
          injection hev with hev
          rw [Prod.mk.injEq] at hev
          obtain ⟨hE, hcache⟩ := hev
          unfold eval_nets at hnets
          split at hnets
          · simp at hnets
          · rename_i cA ea1 hea1
            split at hnets
            · simp at hnets
            · rename_i lrest cX hnets2
              injection hnets with hnets
              rw [Prod.mk.injEq] at hnets
              obtain ⟨hlE, hc2⟩ := hnets
              unfold eval_nets at hnets2
              split at hnets2
              · simp at hnets2
              · rename_i cB ea2 hea2
                split at hnets2
                · simp at hnets2
                · rename_i lrest2 cY hnets3
                  injection hnets2 with hnets2
                  rw [Prod.mk.injEq] at hnets2
                  obtain ⟨hlrest, hcX⟩ := hnets2
                  unfold eval_net_attrs at hea1
                  split at hea1
                  · simp at hea1
                  · rename_i ccA hfoldA
                    split at hea1
                    · simp at hea1
                    · rename_i oiA hoiA
                      split at hea1
                      · simp at hea1
                      · rename_i biA hbiA
                        injection hea1 with hea1
                        rw [Prod.mk.injEq] at hea1
                        obtain ⟨hccA, hea1v⟩ := hea1
                        obtain ⟨ann, hrout, hfind, hcc⟩ :=
                          eval_paths_fold_new t net1 (paths_union attrs1) []
                            ccA p hfoldA (by rfl) hp1
                        have hanneq : ann = ann1 := by
                          rw [hfind] at hann
                          injection hann
                        subst hanneq
                        unfold eval_net_attrs at hea2
                        split at hea2
                        · simp at hea2
                        · rename_i ccB hfoldB
                          split at hea2
                          · simp at hea2
                          · rename_i oiB hoiB
                            split at hea2
                            · simp at hea2
                            · rename_i biB hbiB
                              injection hea2 with hea2
                              rw [Prod.mk.injEq] at hea2
                              obtain ⟨hccB, hea2v⟩ := hea2
                              have hstab : ccB.lookup p =
                                  some (mk_fact t net1 p ann) := by
                                refine eval_paths_fold_stable t net2
                                  (paths_union attrs2) cA ccB p _ hfoldB ?_
                                rw [← hccA]
                                exact hcc
                              have hmemB : mk_fact t net1 p ann ∈ biB :=
                                infos_of_hit ccB attrs2.block biB p _ hbiB
                                  hp2 hstab
                              refine ⟨lE, ea2, ?_, ?_, ?_, ?_, ?_, ?_⟩
                              · rw [← h1, ← hE]
                                exact List.lookup_cons_self
                              · rw [← hlE, ← hlrest]
                                rw [lookup_cons_ne net1 net2 ea1 _ hnn]
                                exact List.lookup_cons_self
                              · rw [← hea2v]
                                exact hmemB
                              · unfold mk_fact
                                rcases get_as_path t p with ⟨a2, b2, c2x, d2⟩
                                rfl
                              · unfold mk_fact
                                rcases get_as_path t p with ⟨a2, b2, c2x, d2⟩
                                exact Ne.symm hnn
                              · unfold mk_fact derived_as_path
                                rcases hg : get_as_path t p with ⟨a2, b2, c2x, d2⟩
                                simp [hg]

/-- The topology of the C9 witness: router A (AS 100) advertises only P1,
with the extra AS path (300,). -/
def c9T : Topo :=
  { nodes := [("A", VERTEXTYPE.ROUTER)]
    adj := []
    asn := [("A", 100)]
    nbrs := []
    anns := [("A", [⟨"P1", [300]⟩])] }

/-- P1 attributes of the C9 witness: the path (A,) allowed. -/
def c9a1 : NetAttrs := ⟨[["A"]], [], []⟩

/-- P2 attributes of the C9 witness: the same path (A,) blocked. -/
def c9a2 : NetAttrs := ⟨[], [["A"]], []⟩

/-- The merged graph of the C9 witness: node X carries the path (A,) under
P1 and under P2. -/
def c9M : MGraph := ⟨[("X", [("P1", c9a1), ("P2", c9a2)])], []⟩

/-- C9 witness: on the concrete two-prefix instance, the fact attached
under P2 is built from P1. -/
theorem c9_witness :
    (mk_fact c9T "P1" ["A"] ⟨"P1", [300]⟩).ann_name = "P1" ∧
    (mk_fact c9T "P1" ["A"] ⟨"P1", [300]⟩).ann_name ≠ "P2" ∧
    (mk_fact c9T "P1" ["A"] ⟨"P1", [300]⟩).as_path =
      derived_as_path c9T ["A"] ++ [some 300] := by
  obtain ⟨netsE, ea2, h1, h2, h3, h4, h5, h6⟩ :=
    c9_cache_keyed_by_path_alone c9T "X" "P1" "P2" c9a1 c9a2 [] [] []
      ["A"] ⟨"P1", [300]⟩ _ _ _ rfl (by decide) (by decide) (by decide) rfl
  exact ⟨h4, h5, by rw [h6]; rfl⟩

/-- The requirement variants (destination prefix plus router paths; the
ranked and k-connected variants hold lists of PathReq as the spec's data
model states). -/
inductive Req where
  | single : String → List String → Req
  | ordered : String → List (String × List String) → Req
  | kconn : String → List (String × List String) → Req
deriving DecidableEq, Repr

/-- The destination prefix of a requirement. -/
def req_net : Req → String
  | .single n _ => n
  | .ordered n _ => n
  | .kconn n _ => n

/-- EBGPPropagation.extract_reqs: per requirement, the AS-level fact sets
and the router-level fact sets (each fact pairs the origin router, the last
router of the requirement path, with the reversed path). -/
def extract_reqs (t : Topo) :
    List Req →
    List (List (String × List Nat)) × List (List (String × List String))
  | [] => ([], [])
  | r :: rest =>
      match extract_reqs t rest with
      | (bgp, full) =>
          match r with
          | .single _ path =>
              ([(path.getLastD "", get_bgp_path t path)] :: bgp,
               [(path.getLastD "", path.reverse)] :: full)
          | .ordered _ childs =>
              ((childs.map (fun c => [(c.2.getLastD "", get_bgp_path t c.2)]))
                  ++ bgp,
               (childs.map (fun c => [(c.2.getLastD "", c.2.reverse)])) ++ full)
          | .kconn _ childs =>
              ((childs.map (fun c => (c.2.getLastD "", get_bgp_path t c.2)))
                  :: bgp,
               (childs.map (fun c => (c.2.getLastD "", c.2.reverse))) :: full)

/-- Group a requirement into the per-prefix dictionary. -/
def req_group_append : List (String × List Req) → String → Req →
    List (String × List Req)
  | [], n, r => [(n, [r])]
  | (k, l) :: rest, n, r =>
      if k = n then (k, l ++ [r]) :: rest
      else (k, l) :: req_group_append rest n r

/-- The net_reqs grouping of compute_dags: requirements grouped by their
destination prefix, in first-seen order. -/
def net_reqs (reqs : List Req) : List (String × List Req) :=
  reqs.foldl (fun acc r => req_group_append acc (req_net r) r) []

/-- The per-node attributes of the AS-level (eBGP) propagation graph built
by the external primitive: AS-number sequences instead of router paths. -/
structure ANetAttrs where
  apaths : List (List Nat)
  ablock : List (List Nat)
  aorder : List (List (List Nat))
deriving DecidableEq, Repr

/-- The AS-level per-prefix propagation graph. -/
structure AGraph where
  anodes : List (String × ANetAttrs)
  aedges : List (String × String)
deriving DecidableEq, Repr

/-- The merged AS-level propagation graph. -/
structure AMGraph where
  amnodes : List (String × List (String × ANetAttrs))
  amedges : List (String × String)
deriving DecidableEq, Repr

/-- merge_dags node step for the eBGP dictionary. -/
def merge_node_a (net : String) (m : AMGraph) (node : String)
    (attrs : ANetAttrs) : AMGraph :=
  match m.amnodes.lookup node with
  | none => { m with amnodes := m.amnodes ++ [(node, [(net, attrs)])] }
  | some nets =>
      { m with amnodes := assoc_update m.amnodes node (nets ++ [(net, attrs)]) }

/-- merge_dags edge step for the eBGP dictionary. -/
def add_amedge (m : AMGraph) (u v : String) : AMGraph :=
  if (u, v) ∈ m.amedges ∨ (v, u) ∈ m.amedges then m
  else { m with amedges := m.amedges ++ [(u, v)] }

/-- merge_dags for the dictionary of AS-level per-prefix graphs (the first
loop of the source; the second loop over the router-level graphs is
merge_dags above). -/
def merge_dags_a (gs : List (String × AGraph)) : AMGraph :=
  gs.foldl
    (fun m pr =>
      let m1 := pr.2.anodes.foldl (fun m q => merge_node_a pr.1 m q.1 q.2) m
      pr.2.aedges.foldl (fun m e => add_amedge m e.1 e.2) m1)
    ⟨[], []⟩

/-- The empty-order filter that compute_dags applies to the router-level
graph of each prefix. -/
def filter_orders (g : PGraph) : PGraph :=
  { g with
    pnodes := g.pnodes.map
      (fun q => (q.1, { q.2 with order := q.2.order.filter (fun x => ¬ x.isEmpty) })) }

/-- Add an origin router under the first AS of its AS path (the origins
dictionary of expand_ebgp_graph); an empty AS path is the IndexError of the
source. -/
def set_add_assoc : List (Nat × List String) → Nat → String →
    List (Nat × List String)
  | [], a, o => [(a, [o])]
  | (k, l) :: rest, a, o =>
      if k = a then (k, if o ∈ l then l else l ++ [o]) :: rest
      else (k, l) :: set_add_assoc rest a o

/-- Build the origins dictionary of expand_ebgp_graph. -/
def origins_build : List (String × List Nat) → List (Nat × List String) →
    Except String (List (Nat × List String))
  | [], acc => .ok acc
  | (origin, asp) :: rest, acc =>
      match asp with
      | [] => .error "IndexError: as path"
      | a :: _ => origins_build rest (set_add_assoc acc a origin)

/-- The distinct AS paths collected from the paths and block sets of every
node of the AS-level graph. -/
def all_as_paths (g : AGraph) : List (List Nat) :=
  g.anodes.foldl
    (fun acc q =>
      (q.2.apaths ++ q.2.ablock).foldl
        (fun acc p => if p ∈ acc then acc else acc ++ [p]) acc)
    []

/-- Record one expanded router path in the router-level graph: skipped when
the terminal node already allows it, otherwise added to the node's block
set; a terminal node absent from the graph is the KeyError of the
source. -/
def pg_add_block (g : PGraph) (rp : List String) : Except String PGraph :=
  match g.pnodes.lookup (rp.getLastD "") with
  | none => .error (String.append "KeyError: " (rp.getLastD ""))
  | some attrs =>
      if rp ∈ attrs.paths then .ok g
      else if rp ∈ attrs.block then .ok g
      else .ok { g with
        pnodes := assoc_update g.pnodes (rp.getLastD "")
          { attrs with block := attrs.block ++ [rp] } }

/-- Record a list of expanded router paths. -/
def pg_add_blocks (g : PGraph) : List (List String) → Except String PGraph
  | [] => .ok g
  | rp :: rest =>
      match pg_add_block g rp with
      | .error e => .error e
      | .ok g2 => pg_add_blocks g2 rest

/-- Expand every collected AS path and record the expansions. -/
def expand_all (t : Topo) (zones : List (Nat × ZGraph))
    (origins : List (Nat × List String)) :
    List (List Nat) → PGraph → Except String PGraph
  | [], g => .ok g
  | asp :: rest, g =>
      match asp with
      | [] => .error "IndexError: as path"
      | a :: _ =>
          match origins.lookup a with
          | none => .error "KeyError: origins"
          | some os =>
              match expand_as_path t zones asp os with
              | none => .error "KeyError: ibgp zones"
              | some expanded =>
                  match pg_add_blocks g expanded with
                  | .error e => .error e
                  | .ok g2 => expand_all t zones origins rest g2

/-- EBGPPropagation.expand_ebgp_graph: expand the AS-level paths of the
eBGP graph into router paths and record each expansion in the router-level
graph. -/
def expand_ebgp_graph (t : Topo) (zones : List (Nat × ZGraph)) (eg : AGraph)
    (ig : PGraph) (ebgp_paths : List (List (String × List Nat))) :
    Except String PGraph :=
  match origins_build ebgp_paths.flatten [] with
  | .error e => .error e
  | .ok origins => expand_all t zones origins (all_as_paths eg) ig

/-- The output of compute_dags kept by the claims: the per-prefix graph
dictionaries, the two merged graphs, the returned ordering violations, and
the observed AS paths. -/
structure DagsOut where
  ebgp_graphs : List (String × AGraph)
  ibgp_graphs : List (String × PGraph)
  ebgp_propagation : AMGraph
  ibgp_propagation : MGraph
  unmatching_order : List String
  as_paths : List (List (Option Nat))
deriving DecidableEq, Repr

/-- The per-prefix loop of compute_dags: build both views, filter empty
order entries of the router-level view, run the external ordering check on
the eBGP view (overwriting the loop variable), and extend the router-level
view with the expanded eBGP paths. -/
def dags_loop (t : Topo)
    (cPropE : List (List (String × List Nat)) → AGraph)
    (cPropI : List (List (String × List String)) → PGraph)
    (check_order : AGraph → List String) :
    List (String × List Req) → List (String × AGraph) →
    List (String × PGraph) → Option (List String) →
    Except String
      (List (String × AGraph) × List (String × PGraph) × Option (List String))
  | [], egs, igs, un => .ok (egs, igs, un)
  | (net, rs) :: rest, egs, igs, _ =>
      match extract_reqs t rs with
      | (ebgp_paths, ibgp_paths) =>
          let eg := cPropE ebgp_paths
          let ig := filter_orders (cPropI ibgp_paths)
          let unmatch := check_order eg
          match expand_ebgp_graph t (extract_ibgp_zones t) eg ig ebgp_paths with
          | .error e => .error e
          | .ok ig2 =>
              dags_loop t cPropE cPropI check_order rest
                (egs ++ [(net, eg)]) (igs ++ [(net, ig2)]) (some unmatch)

/-- EBGPPropagation.compute_dags: group the requirements by prefix, run the
per-prefix loop, merge both dictionaries, run the partial evaluation on the
merged router-level graph, and return the last value of the loop-local
unmatching_order variable (an unassigned variable, when no prefix was
processed, is the NameError of the source). -/
def compute_dags (t : Topo) (reqs : List Req)
    (cPropE : List (List (String × List Nat)) → AGraph)
    (cPropI : List (List (String × List String)) → PGraph)
    (check_order : AGraph → List String) : Except String DagsOut :=
  match dags_loop t cPropE cPropI check_order (net_reqs reqs) [] [] none with
  | .error e => .error e
  | .ok (egs, igs, un) =>
      match peval_propagated_info t (merge_dags igs) with
      | .error e => .error e
      | .ok (_, _, asps) =>
          match un with
          | none => .error "NameError: unmatching_order"
          | some u =>
              .ok ⟨egs, igs, merge_dags_a egs, merge_dags igs, u, asps⟩

/-- The returned ordering violations of a compute_dags run. -/
def dags_violations (r : Except String DagsOut) : Option (List String) :=
  match r with
  | .ok o => some o.unmatching_order
  | .error _ => none

/-- The per-prefix eBGP graph dictionary of a compute_dags run. -/
def dags_ebgp (r : Except String DagsOut) : Option (List (String × AGraph)) :=
  match r with
  | .ok o => some o.ebgp_graphs
  | .error _ => none

/-- The per-prefix router-level graph dictionary of a compute_dags run. -/
def dags_ibgp (r : Except String DagsOut) : Option (List (String × PGraph)) :=
  match r with
  | .ok o => some o.ibgp_graphs
  | .error _ => none

/-- Unfolding of the per-prefix loop on a nonempty group list. -/
theorem dags_loop_cons (t : Topo)
    (cPropE : List (List (String × List Nat)) → AGraph)
    (cPropI : List (List (String × List String)) → PGraph)
    (chk : AGraph → List String) (net : String) (rs : List Req)
    (rest : List (String × List Req)) (egs : List (String × AGraph))
    (igs : List (String × PGraph)) (un : Option (List String)) :
    dags_loop t cPropE cPropI chk ((net, rs) :: rest) egs igs un =
      (match expand_ebgp_graph t (extract_ibgp_zones t)
          (cPropE (extract_reqs t rs).1)
          (filter_orders (cPropI (extract_reqs t rs).2))
          (extract_reqs t rs).1 with
       | .error e => .error e
       | .ok ig2 =>
           dags_loop t cPropE cPropI chk rest
             (egs ++ [(net, cPropE (extract_reqs t rs).1)])
             (igs ++ [(net, ig2)])
             (some (chk (cPropE (extract_reqs t rs).1)))) := by
  rfl

/-- The per-prefix loop builds one eBGP graph per processed group, each
from that group's requirements alone. -/
theorem dags_loop_egs (t : Topo)
    (cPropE : List (List (String × List Nat)) → AGraph)
    (cPropI : List (List (String × List String)) → PGraph)
    (chk : AGraph → List String) :
    ∀ (groups : List (String × List Req)) (egs : List (String × AGraph))
      (igs : List (String × PGraph)) (un : Option (List String))
      (egs2 : List (String × AGraph)) (igs2 : List (String × PGraph))
      (un2 : Option (List String)),
      dags_loop t cPropE cPropI chk groups egs igs un = .ok (egs2, igs2, un2) →
      egs2 = egs ++ groups.map (fun pr => (pr.1, cPropE (extract_reqs t pr.2).1)) := by
  intro groups
  induction groups with
  | nil =>
    intro egs igs un egs2 igs2 un2 h
    simp [dags_loop] at h
    simp [← h.1]
  | cons g rest ih =>
    intro egs igs un egs2 igs2 un2 h
    obtain ⟨net, rs⟩ := g
    rw [dags_loop_cons] at h
    split at h
    · exact Except.noConfusion h
    · rename_i ig2 hexp
      have h1 := ih _ _ _ _ _ _ h
      rw [h1]
      simp

/-- The loop-local unmatching_order variable is overwritten on every
group: on exit it holds the check result of the last processed group
alone. -/
theorem dags_loop_last (t : Topo)
    (cPropE : List (List (String × List Nat)) → AGraph)
    (cPropI : List (List (String × List String)) → PGraph)
    (chk : AGraph → List String) :
    ∀ (groups init : List (String × List Req)) (netL : String)
      (rsL : List Req) (egs : List (String × AGraph))
      (igs : List (String × PGraph)) (un : Option (List String))
      (egs2 : List (String × AGraph)) (igs2 : List (String × PGraph))
      (un2 : Option (List String)),
      groups = init ++ [(netL, rsL)] →
      dags_loop t cPropE cPropI chk groups egs igs un = .ok (egs2, igs2, un2) →
      un2 = some (chk (cPropE (extract_reqs t rsL).1)) := by
  intro groups
  induction groups with
  | nil =>
    intro init netL rsL egs igs un egs2 igs2 un2 hg h
    exact absurd hg (by simp)
  | cons g rest ih =>
    intro init netL rsL egs igs un egs2 igs2 un2 hg h
    obtain ⟨net, rs⟩ := g
    rw [dags_loop_cons] at h
    split at h
    · exact Except.noConfusion h
    · rename_i ig2 hexp
      cases init with
      | nil =>
        simp only [List.nil_append] at hg
        injection hg with hg1 hg2
        subst hg2
        simp [dags_loop] at h
        injection hg1 with hg1a hg1b
        subst hg1b
        rw [← h.2.2]
      | cons i0 init2 =>
        rw [List.cons_append] at hg
        injection hg with hg1 hg2
        exact ih init2 netL rsL _ _ _ _ _ _ hg2 h

/-- C5: compute_dags builds the eBGP-level graph of every prefix group and
runs the external ordering-violation checker inside the loop without
raising, but the returned violations are those of the LAST processed
prefix alone: the loop variable unmatching_order is overwritten on every
iteration, so the violations of every earlier prefix are discarded rather
than collected. -/
theorem c5_amended (t : Topo) (reqs : List Req)
    (cPropE : List (List (String × List Nat)) → AGraph)
    (cPropI : List (List (String × List String)) → PGraph)
    (chk : AGraph → List String)
    (init : List (String × List Req)) (netL : String) (rsL : List Req)
    (out : DagsOut)
    (hg : net_reqs reqs = init ++ [(netL, rsL)])
    (h : compute_dags t reqs cPropE cPropI chk = .ok out) :
    out.unmatching_order = chk (cPropE (extract_reqs t rsL).1) ∧
    out.ebgp_graphs =
      (net_reqs reqs).map (fun pr => (pr.1, cPropE (extract_reqs t pr.2).1)) := by
  unfold compute_dags at h
  split at h
  · exact Except.noConfusion h
  · rename_i egs igs un hloop
    split at h
    · exact Except.noConfusion h
    · rename_i x1 x2 asps hpe
      split at h
      · exact Except.noConfusion h
      · rename_i u hun
        injection h with h2
        subst h2
        constructor
        · have hlast := dags_loop_last t cPropE cPropI chk (net_reqs reqs)
            init netL rsL [] [] none egs igs (some hun) hg hloop
          injection hlast with hlast2
        · have hegs := dags_loop_egs t cPropE cPropI chk (net_reqs reqs)
            [] [] none egs igs (some hun) hloop
          simpa using hegs

/-- A topology of two routers in distinct ASes for the C5 refutation. -/
def c5cT : Topo :=
  ⟨[("a", VERTEXTYPE.ROUTER), ("b", VERTEXTYPE.ROUTER)], [],
   [("a", 100), ("b", 200)], [], []⟩

/-- Two requirements in distinct prefixes, so compute_dags processes two
prefix groups. -/
def c5cReqs : List Req :=
  [Req.single "N1" ["a"], Req.single "N2" ["b"]]

/-- An external AS-level primitive stub that encodes its input origins into
the edge list, so the checker stub can tell the prefixes apart. -/
def c5cPropE (paths : List (List (String × List Nat))) : AGraph :=
  ⟨[], paths.flatten.map (fun pr => (pr.1, pr.1))⟩

/-- A router-level primitive stub returning the empty graph. -/
def c5cPropI (_ : List (List (String × List String))) : PGraph :=
  ⟨[], []⟩

/-- A checker stub that reports a violation exactly on the first prefix's
eBGP graph. -/
def c5cChk (g : AGraph) : List String :=
  if g.aedges = [("a", "a")] then ["violation"] else []

/-- C5 counterexample: the checker reports a violation on the first
prefix's eBGP graph, the first prefix is a processed group, yet the
violations returned by compute_dags are empty — the first prefix's
violations were overwritten by the last prefix's empty check result, so
the claim that the collected violations of all prefixes are returned
fails. -/
theorem c5_counterexample :
    dags_violations (compute_dags c5cT c5cReqs c5cPropE c5cPropI c5cChk)
      = some [] ∧
    c5cChk (c5cPropE (extract_reqs c5cT [Req.single "N1" ["a"]]).1)
      = ["violation"] ∧
    ("N1", [Req.single "N1" ["a"]]) ∈ net_reqs c5cReqs := by
  exact ⟨rfl, rfl, by decide⟩

/-- C5 witness: the amended theorem applied to the concrete two-prefix
run, whose returned violations are the check result of the last prefix
group N2. -/
theorem c5_witness :
    net_reqs c5cReqs =
      [("N1", [Req.single "N1" ["a"]])] ++ [("N2", [Req.single "N2" ["b"]])] ∧
    dags_violations (compute_dags c5cT c5cReqs c5cPropE c5cPropI c5cChk)
      = some (c5cChk (c5cPropE (extract_reqs c5cT [Req.single "N2" ["b"]]).1)) := by
  refine ⟨by decide, ?_⟩
  obtain ⟨h1, h2⟩ := c5_amended c5cT c5cReqs c5cPropE c5cPropI c5cChk
    [("N1", [Req.single "N1" ["a"]])] "N2" [Req.single "N2" ["b"]] _
    (by decide) rfl
  exact congrArg some h1

/-- No node of a filtered router-level graph keeps an empty order
entry. -/
theorem filter_orders_no_empty (g : PGraph) :
    ∀ q ∈ (filter_orders g).pnodes, [] ∉ q.2.order := by
  intro q hq hmem
  simp only [filter_orders, List.mem_map] at hq
  obtain ⟨a, ha, heq⟩ := hq
  rw [← heq] at hmem
  simp at hmem

/-- Recording one expanded path touches only the block set, never the
order list. -/
theorem pg_add_block_no_empty (g : PGraph) (rp : List String) (g2 : PGraph)
    (h : pg_add_block g rp = .ok g2)
    (hg : ∀ q ∈ g.pnodes, [] ∉ q.2.order) :
    ∀ q ∈ g2.pnodes, [] ∉ q.2.order := by
  unfold pg_add_block at h
  split at h
  · exact Except.noConfusion h
  · rename_i attrs hlook
    split at h
    · injection h with h2
      subst h2
      exact hg
    · split at h
      · injection h with h2
        subst h2
        exact hg
      · injection h with h2
        subst h2
        intro q hq
        rcases assoc_update_mem g.pnodes (rp.getLastD "")
            { attrs with block := attrs.block ++ [rp] } q hq with hm | he
        · exact hg q hm
        · rw [he]
          exact hg (rp.getLastD "", attrs)
            (lookup_mem g.pnodes (rp.getLastD "") attrs hlook)

/-- Recording a list of expanded paths preserves the no-empty-order
property. -/
theorem pg_add_blocks_no_empty :
    ∀ (rps : List (List String)) (g g2 : PGraph),
      pg_add_blocks g rps = .ok g2 →
      (∀ q ∈ g.pnodes, [] ∉ q.2.order) →
      ∀ q ∈ g2.pnodes, [] ∉ q.2.order := by
  intro rps
  induction rps with
  | nil =>
    intro g g2 h hg
    simp only [pg_add_blocks] at h
    injection h with h2
    subst h2
    exact hg
  | cons rp rest ih =>
    intro g g2 h hg
    simp only [pg_add_blocks] at h
    split at h
    · exact Except.noConfusion h
    · rename_i g3 hstep
      exact ih g3 g2 h (pg_add_block_no_empty g rp g3 hstep hg)

/-- Expanding all collected AS paths preserves the no-empty-order
property. -/
theorem expand_all_no_empty (t : Topo) (zones : List (Nat × ZGraph))
    (origins : List (Nat × List String)) :
    ∀ (asps : List (List Nat)) (g g2 : PGraph),
      expand_all t zones origins asps g = .ok g2 →
      (∀ q ∈ g.pnodes, [] ∉ q.2.order) →
      ∀ q ∈ g2.pnodes, [] ∉ q.2.order := by
  intro asps
  induction asps with
  | nil =>
    intro g g2 h hg
    simp only [expand_all] at h
    injection h with h2
    subst h2
    exact hg
  | cons asp rest ih =>
    intro g g2 h hg
    simp only [expand_all] at h
    split at h
    · exact Except.noConfusion h
    · rename_i a tl
      split at h
      · exact Except.noConfusion h
      · rename_i os hos
        split at h
        · exact Except.noConfusion h
        · rename_i expanded hexp
          split at h
          · exact Except.noConfusion h
          · rename_i g3 hblocks
            exact ih g3 g2 h
              (pg_add_blocks_no_empty expanded g g3 hblocks hg)

/-- expand_ebgp_graph preserves the no-empty-order property of the
router-level graph it extends. -/
theorem expand_ebgp_graph_no_empty (t : Topo) (zones : List (Nat × ZGraph))
    (eg : AGraph) (ig ig2 : PGraph)
    (ebgp_paths : List (List (String × List Nat)))
    (h : expand_ebgp_graph t zones eg ig ebgp_paths = .ok ig2)
    (hg : ∀ q ∈ ig.pnodes, [] ∉ q.2.order) :
    ∀ q ∈ ig2.pnodes, [] ∉ q.2.order := by
  unfold expand_ebgp_graph at h
  split at h
  · exact Except.noConfusion h
  · rename_i origins horig
    exact expand_all_no_empty t zones origins (all_as_paths eg) ig ig2 h hg

/-- Every router-level graph accumulated by the per-prefix loop has no
empty order entry: each is the filtered primitive output, extended only in
its block sets. -/
theorem dags_loop_igs_no_empty (t : Topo)
    (cPropE : List (List (String × List Nat)) → AGraph)
    (cPropI : List (List (String × List String)) → PGraph)
    (chk : AGraph → List String) :
    ∀ (groups : List (String × List Req)) (egs : List (String × AGraph))
      (igs : List (String × PGraph)) (un : Option (List String))
      (egs2 : List (String × AGraph)) (igs2 : List (String × PGraph))
      (un2 : Option (List String)),
      dags_loop t cPropE cPropI chk groups egs igs un = .ok (egs2, igs2, un2) →
      (∀ p ∈ igs, ∀ q ∈ p.2.pnodes, [] ∉ q.2.order) →
      ∀ p ∈ igs2, ∀ q ∈ p.2.pnodes, [] ∉ q.2.order := by
  intro groups
  induction groups with
  | nil =>
    intro egs igs un egs2 igs2 un2 h hig
    simp [dags_loop] at h
    rw [← h.2.1]
    exact hig
  | cons g rest ih =>
    intro egs igs un egs2 igs2 un2 h hig
    obtain ⟨net, rs⟩ := g
    rw [dags_loop_cons] at h
    split at h
    · exact Except.noConfusion h
    · rename_i ig2 hexp
      refine ih _ _ _ _ _ _ h ?_
      intro p hp
      rcases List.mem_append.mp hp with hp1 | hp2
      · exact hig p hp1
      · have hp3 : p = (net, ig2) := by simpa using hp2
        rw [hp3]
        exact expand_ebgp_graph_no_empty t (extract_ibgp_zones t)
          (cPropE (extract_reqs t rs).1)
          (filter_orders (cPropI (extract_reqs t rs).2)) ig2
          (extract_reqs t rs).1 hexp
          (filter_orders_no_empty (cPropI (extract_reqs t rs).2))

/-- C8: after compute_dags, no node of any per-prefix ROUTER-LEVEL graph
has an empty entry in its order list: the loop filters the empty ranked
sets out of the router-level view before merging, and the eBGP expansion
only grows block sets.  The claim's other half is refuted separately: the
AS-level (eBGP) view is never filtered, so its empty order entries
survive. -/
theorem c8_amended (t : Topo) (reqs : List Req)
    (cPropE : List (List (String × List Nat)) → AGraph)
    (cPropI : List (List (String × List String)) → PGraph)
    (chk : AGraph → List String) (out : DagsOut)
    (h : compute_dags t reqs cPropE cPropI chk = .ok out) :
    ∀ p ∈ out.ibgp_graphs, ∀ q ∈ p.2.pnodes, [] ∉ q.2.order := by
  unfold compute_dags at h
  split at h
  · exact Except.noConfusion h
  · rename_i egs igs un hloop
    split at h
    · exact Except.noConfusion h
    · rename_i x1 x2 asps hpe
      split at h
      · exact Except.noConfusion h
      · rename_i u hun
        injection h with h2
        subst h2
        exact dags_loop_igs_no_empty t cPropE cPropI chk (net_reqs reqs)
          [] [] none egs igs (some hun) hloop (by simp)

/-- A one-router topology for the C8 refutation. -/
def c8cT : Topo :=
  ⟨[("a", VERTEXTYPE.ROUTER)], [], [("a", 100)], [], []⟩

/-- A single requirement, so one prefix group is processed. -/
def c8cReqs : List Req :=
  [Req.single "N1" ["a"]]

/-- An AS-level graph with one node whose order list holds an empty
entry. -/
def c8cEG : AGraph :=
  ⟨[("x", ⟨[], [], [[]]⟩)], []⟩

/-- An AS-level primitive stub returning that graph. -/
def c8cPropE (_ : List (List (String × List Nat))) : AGraph :=
  c8cEG

/-- A router-level primitive stub returning the empty graph. -/
def c8cPropI (_ : List (List (String × List String))) : PGraph :=
  ⟨[], []⟩

/-- A checker stub reporting no violation. -/
def c8cChk (_ : AGraph) : List String :=
  []

/-- C8 counterexample: the per-prefix eBGP view kept by compute_dags still
holds a node with an empty entry in its order list — only the router-level
view is filtered, so the claim fails for the AS-level view. -/
theorem c8_counterexample :
    dags_ebgp (compute_dags c8cT c8cReqs c8cPropE c8cPropI c8cChk)
      = some [("N1", c8cEG)] ∧
    ("x", ⟨[], [], [[]]⟩) ∈ c8cEG.anodes ∧
    [] ∈ (⟨[], [], [[]]⟩ : ANetAttrs).aorder := by
  exact ⟨rfl, by decide, by decide⟩

/-- A one-router topology whose router advertises the prefix N1, for the
C8 witness. -/
def c8wT : Topo :=
  ⟨[("r", VERTEXTYPE.ROUTER)], [], [("r", 100)], [],
   [("r", [⟨"N1", []⟩])]⟩

/-- A single requirement on that router. -/
def c8wReqs : List Req :=
  [Req.single "N1" ["r"]]

/-- An AS-level primitive stub returning the empty graph. -/
def c8wPropE (_ : List (List (String × List Nat))) : AGraph :=
  ⟨[], []⟩

/-- A router-level primitive stub returning one node whose order list
holds an empty entry next to a real ranked set. -/
def c8wPropI (_ : List (List (String × List String))) : PGraph :=
  ⟨[("r", ⟨[["r"]], [], [[], [["r"]]]⟩)], []⟩

/-- A checker stub reporting no violation. -/
def c8wChk (_ : AGraph) : List String :=
  []

/-- The router-level graph compute_dags keeps for the prefix N1: the empty
ranked set was filtered out, the real one survives. -/
def c8wIG : PGraph :=
  ⟨[("r", ⟨[["r"]], [], [[["r"]]]⟩)], []⟩

/-- The full output of the C8 witness run. -/
def c8wOut : DagsOut :=
  ⟨[("N1", ⟨[], []⟩)], [("N1", c8wIG)], ⟨[], []⟩,
   ⟨[("r", [("N1", ⟨[["r"]], [], [[["r"]]]⟩)])], []⟩, [], [[some 100]]⟩

/-- C8 witness: the amended theorem applied to a concrete run whose
primitive emitted an empty ranked set; the kept router-level graph has
none. -/
theorem c8_witness :
    compute_dags c8wT c8wReqs c8wPropE c8wPropI c8wChk = .ok c8wOut ∧
    [] ∉ (⟨[["r"]], [], [[["r"]]]⟩ : NetAttrs).order := by
  refine ⟨rfl, ?_⟩
  exact c8_amended c8wT c8wReqs c8wPropE c8wPropI c8wChk c8wOut rfl
    ("N1", c8wIG) (by decide) ("r", ⟨[["r"]], [], [[["r"]]]⟩) (by decide)

end CEGS
